import Mathlib

/-!
Verification of the TOSGuardian rule engine (server.js / the engine variant in
src/unnamed/part_002) against its natural-language specification.

Modelling conventions (shallow embedding):
* JS strings are sequences of UTF-16 code units; we model them as `List Nat`
  of code points.  Case mapping (`toLowerCase`/`toUpperCase`) is modelled by
  the ASCII simple case map, and the character classes `\s`, `\w`, `[a-z0-9]`
  by their ASCII contents, which is what the engine's data uses.
* Fallible IO (rulebook files, shared fragments, image downloads, the local
  LLM call) is modelled by an explicit environment record of pure functions;
  an `Option` result `none` models a thrown error / missing file.
* JS regular expressions appearing in the engine are each modelled by a
  dedicated executable function mirroring the regex's matching behaviour
  (leftmost match, greedy runs, alternative order, word boundaries).
* Several scans that walk a string while skipping over consumed runs are
  written with an explicit fuel argument (initialised to the string length)
  so that they are structurally recursive and evaluate inside the kernel;
  a fuel-irrelevance lemma accompanies each and yields the natural
  unfolding equations.
-/

/-- Code points of a string literal (convenience for writing concrete inputs). -/
def str (s : String) : List Nat := s.toList.map Char.toNat

/-- ASCII lower-case map of one code point (model of JS `toLowerCase`). -/
def lowChar (c : Nat) : Nat := if 65 ≤ c ∧ c ≤ 90 then c + 32 else c

/-- ASCII upper-case map of one code point (model of JS `toUpperCase`). -/
def upChar (c : Nat) : Nat := if 97 ≤ c ∧ c ≤ 122 then c - 32 else c

/-- Model of JS `String.prototype.toLowerCase` (ASCII range). -/
def jsToLower (s : List Nat) : List Nat := s.map lowChar

/-- Model of `[a-z0-9]` tested case-insensitively, i.e. `/^[a-z0-9]+$/i` char class. -/
def isAlnum (c : Nat) : Bool :=
  (48 ≤ c && c ≤ 57) || (65 ≤ c && c ≤ 90) || (97 ≤ c && c ≤ 122)

/-- JS `\w` char class (ASCII): letters, digits, underscore. -/
def isWordCh (c : Nat) : Bool := isAlnum c || c == 95

/-- JS `\s` char class (ASCII part): tab, LF, VT, FF, CR, space. -/
def isSpaceCh (c : Nat) : Bool :=
  c == 9 || c == 10 || c == 11 || c == 12 || c == 13 || c == 32

/-- Model of `\S` (not whitespace). -/
def notSpaceCh (c : Nat) : Bool := !(isSpaceCh c)

/-! ## Damerau-Levenshtein edit distance (`editDistance` in the source)

The source fills a `(m+1)×(n+1)` DP table:
`dp[i][0]=i`, `dp[0][j]=j`, and
`dp[i][j] = min(dp[i-1][j]+1, dp[i][j-1]+1, dp[i-1][j-1]+cost)` further
lowered to `dp[i-2][j-2]+1` when `i>1 ∧ j>1 ∧ a[i-1]=b[j-2] ∧ a[i-2]=b[j-1]`.
`dEdF a b fuel i j` is exactly this recurrence computing `dp[i][j]`; the
fuel (any value `≥ i + j`, see `dEdF_fuel`) only drives termination. -/

def dEdF (a b : List Nat) : Nat → Nat → Nat → Nat
  | _, 0, j => j
  | _, i+1, 0 => i+1
  | 0, _+1, _+1 => 0
  | f+1, i+1, j+1 =>
    let cost : Nat := if a.getD i 0 = b.getD j 0 then 0 else 1
    let v := min (min (dEdF a b f i (j+1) + 1) (dEdF a b f (i+1) j + 1))
                 (dEdF a b f i j + cost)
    if 1 ≤ i ∧ 1 ≤ j ∧ a.getD i 0 = b.getD (j-1) 0 ∧ a.getD (i-1) 0 = b.getD j 0 then
      min v (dEdF a b f (i-1) (j-1) + 1)
    else v

/-- Model of `editDistance(a, b)`: lower-cases both arguments, then runs the DP. -/
def editDistance (a b : List Nat) : Nat :=
  dEdF (jsToLower a) (jsToLower b)
    ((jsToLower a).length + (jsToLower b).length)
    (jsToLower a).length (jsToLower b).length

/-! ## Tokens and proximity (`tokenize`, `fuzzyMatchAny`, `verbNearNoun`) -/

/-- Model of `tokenize`: `split(/[^a-z0-9]+/i).filter(Boolean)`, i.e. the maximal
alphanumeric runs of the text, in order (fueled scan). -/
def tokF : Nat → List Nat → List (List Nat)
  | _, [] => []
  | 0, _ :: _ => []
  | f+1, c :: rest =>
    if isAlnum c then (c :: rest.takeWhile isAlnum) :: tokF f (rest.dropWhile isAlnum)
    else tokF f rest

def tokenize (s : List Nat) : List (List Nat) := tokF s.length s

/-- Model of `fuzzyMatchAny(token, list, maxEd)`. -/
def fuzzyMatchAny (token : List Nat) (list : List (List Nat)) (maxEd : Nat) : Bool :=
  list.any fun term => editDistance token term ≤ maxEd

/-- Model of `verbNearNoun(text, verbs, nouns, windowSize)`: collect the indices of
tokens fuzzy-matching a verb resp. a noun, then test every pair
(`Math.abs(iv - inx)` is `Nat.dist`). -/
def verbNearNoun (text : List Nat) (verbs nouns : List (List Nat))
    (windowSize : Nat) : Bool :=
  let toks := tokenize text
  let idx := (List.range toks.length).map fun i => (i, toks.getD i [])
  let verbIdx := (idx.filter fun p => fuzzyMatchAny p.2 verbs 1).map Prod.fst
  let nounIdx := (idx.filter fun p => fuzzyMatchAny p.2 nouns 1).map Prod.fst
  verbIdx.any fun iv => nounIdx.any fun inx => Nat.dist iv inx ≤ windowSize

/-! ## Style detection and re-application (`detectStyle`, `applyStyle`) -/

inductive Casing | lower | title | sentence
deriving DecidableEq, Repr

structure Style where
  exclam : Nat
  casing : Casing
  usedModal : Bool
deriving DecidableEq, Repr

/-- Maximal non-whitespace runs: `t.trim().split(/\s+/).filter(Boolean)`. -/
def wordsF : Nat → List Nat → List (List Nat)
  | _, [] => []
  | 0, _ :: _ => []
  | f+1, c :: rest =>
    if notSpaceCh c then
      (c :: rest.takeWhile notSpaceCh) :: wordsF f (rest.dropWhile notSpaceCh)
    else wordsF f rest

def wordsOf (s : List Nat) : List (List Nat) := wordsF s.length s

/-- Case-insensitive literal match of `pat` at offset `i` of `s`. -/
def sliceCIAt (pat s : List Nat) (i : Nat) : Bool :=
  decide (i + pat.length ≤ s.length) &&
  (List.range pat.length).all fun k => lowChar (s.getD (i+k) 0) == lowChar (pat.getD k 0)

/-- Both ends of `[i, i+len)` lie on a `\b` word boundary of `s`. -/
def wordBoundaryOk (s : List Nat) (i len : Nat) : Bool :=
  (i == 0 || !isWordCh (s.getD (i-1) 0)) &&
  (i + len == s.length || !isWordCh (s.getD (i+len) 0))

/-- Model of `new RegExp("\\b" + pat + "\\b", "i").test(s)` for a literal word `pat`. -/
def hasWordCI (pat s : List Nat) : Bool :=
  (List.range (s.length + 1)).any fun i => sliceCIAt pat s i && wordBoundaryOk s i pat.length

/-- Model of `detectStyle`.  `Math.floor(words.length * 0.6)` is modelled by
`3 * n / 5` (`0.6 = 3/5`; exact for the word counts arising here). -/
def detectStyle (t : List Nat) : Style :=
  let words := wordsOf t
  let caps := words.filter fun w => decide (65 ≤ w.headD 0 ∧ w.headD 0 ≤ 90)
  { exclam := min (t.count 33) 2
  , casing :=
      if t = jsToLower t then .lower
      else if words.length > 2 ∧ caps.length ≥ 3 * words.length / 5 then .title
      else .sentence
  , usedModal := [str "may", str "might", str "could", str "can"].any fun w => hasWordCI w t }

/-- Model of `out.replace(/\w\S*/g, w => w[0].toUpperCase() + w.slice(1).toLowerCase())`:
each leftmost match starts at a `\w` character and greedily takes the
following non-space run. -/
def titleF : Nat → List Nat → List Nat
  | _, [] => []
  | 0, _ :: _ => []
  | f+1, c :: rest =>
    if isWordCh c then
      (upChar c :: (rest.takeWhile notSpaceCh).map lowChar) ++
        titleF f (rest.dropWhile notSpaceCh)
    else c :: titleF f rest

def titleCase (s : List Nat) : List Nat := titleF s.length s

/-- The casing branch of `applyStyle` ('sentence' is
`out.charAt(0).toUpperCase() + out.slice(1)`). -/
def applyCasing : Casing → List Nat → List Nat
  | .lower, s => jsToLower s
  | .title, s => titleCase s
  | .sentence, [] => []
  | .sentence, c :: rest => upChar c :: rest

/-- Remove the maximal trailing run of characters satisfying `p`
(model of the anchored replaces `/\.*$/` and `/[!]+$/`). -/
def dropTrailing (p : Nat → Bool) (s : List Nat) : List Nat :=
  (s.reverse.dropWhile p).reverse

/-- Model of `applyStyle(text, style)`. -/
def applyStyle (s : List Nat) (st : Style) : List Nat :=
  let out := applyCasing st.casing s
  if 0 < st.exclam then dropTrailing (· == 46) out ++ List.replicate st.exclam 33
  else dropTrailing (· == 33) out

/-! ## Whitespace normalisation and the `split(/(\W+)/)` passes -/

/-- Model of `replace(/\s+/g, ' ')`: each maximal whitespace run becomes one space. -/
def collWSF : Nat → List Nat → List Nat
  | _, [] => []
  | 0, _ :: _ => []
  | f+1, c :: rest =>
    if isSpaceCh c then 32 :: collWSF f (rest.dropWhile isSpaceCh)
    else c :: collWSF f rest

def collapseWS (s : List Nat) : List Nat := collWSF s.length s

/-- JS `String.prototype.trim`. -/
def jsTrim (s : List Nat) : List Nat := dropTrailing isSpaceCh (s.dropWhile isSpaceCh)

/-- Model of `normWS`. -/
def normWS (s : List Nat) : List Nat := jsTrim (collapseWS s)

/-- Model of `s.split(/(\W+)/)` keeps the separators; the engine then rejoins with
`join('')`, so the empty border pieces JS inserts are immaterial and the
split is the alternating maximal `\w`/`\W` runs. -/
def chunkF : Nat → List Nat → List (List Nat)
  | _, [] => []
  | 0, _ :: _ => []
  | f+1, c :: rest =>
    (c :: rest.takeWhile fun d => isWordCh d == isWordCh c) ::
      chunkF f (rest.dropWhile fun d => isWordCh d == isWordCh c)

def chunkSplit (s : List Nat) : List (List Nat) := chunkF s.length s

/-- Model of `/^[a-z0-9]+$/i.test(w)`. -/
def isPlainTok (w : List Nat) : Bool := !w.isEmpty && w.all isAlnum

/-- The claim-verb softening pass (both branches of the plural test write
`'supports'`, since `neutralVerb = 'supports'`). -/
def verbPass (verbs : List (List Nat)) (s : List Nat) : List Nat :=
  ((chunkSplit s).map fun w =>
    if isPlainTok w && fuzzyMatchAny w verbs 1 then
      if w.getLast? == some 115 || w.getLast? == some 83 then str "supports"
      else str "supports"
    else w).flatten

/-- The disease neutralisation pass. -/
def nounPass (diseases : List (List Nat)) (noun : List Nat) (s : List Nat) : List Nat :=
  ((chunkSplit s).map fun w =>
    if isPlainTok w && fuzzyMatchAny w diseases 1 then noun else w).flatten

/-! ## Word-boundary phrase replacement

Models the global case-insensitive replaces
`/\b(w1|w1')\s+w2...\b/ig`: leftmost non-overlapping matches, alternatives
tried in order, `\s+` matched as the greedy maximal whitespace run (exact
here since every following word starts with a non-space character). -/

/-- Case-insensitive literal prefix match: consumed rest on success. -/
def matchCIlit (w s : List Nat) : Option (List Nat) :=
  if jsToLower (s.take w.length) = jsToLower w then some (s.drop w.length) else none

/-- Match words separated by `\s+` at the head of `s`. -/
def matchSeq : List (List Nat) → List Nat → Option (List Nat)
  | [], s => some s
  | [w], s => matchCIlit w s
  | w :: w' :: ws, s =>
    match matchCIlit w s with
    | none => none
    | some r =>
      if r.takeWhile isSpaceCh = [] then none
      else matchSeq (w' :: ws) (r.dropWhile isSpaceCh)

/-- One scan of the subject (fueled).  `prevW` records whether the previous
character of the original string is a word character (the leading `\b`); the
trailing `\b` is checked inside each alternative attempt, which models the
regex backtracking order.  The length guard is dead code for the engine's
patterns (every alternative consumes at least one character). -/
def rbgF (alts : List (List (List Nat))) (repl : List Nat) :
    Nat → Bool → List Nat → List Nat
  | _, _, [] => []
  | 0, _, _ :: _ => []
  | f+1, prevW, c :: rest =>
    match
      (if prevW then none
       else alts.findSome? fun alt =>
         (matchSeq alt (c :: rest)).filter fun r => !isWordCh (r.headD 0)) with
    | some r =>
      if r.length < rest.length + 1 then repl ++ rbgF alts repl f true r
      else c :: rbgF alts repl f (isWordCh c) rest
    | none => c :: rbgF alts repl f (isWordCh c) rest

/-- Model of `s.replace(/\b(alt|...)\b/ig, repl)` for space-separated literal-word
alternatives. -/
def replaceBound (alts : List (List (List Nat))) (repl s : List Nat) : List Nat :=
  rbgF alts repl s.length false s

/-- The four "tidy awkward constructions" replaces, in source order. -/
def tidy (s : List Nat) : List Nat :=
  replaceBound [[str "might", str "supports"]] (str "might support")
    (replaceBound [[str "may", str "supports"]] (str "may support")
      (replaceBound [[str "supports", str "supports"]] (str "supports")
        (replaceBound [[str "help", str "supports"], [str "helps", str "supports"]]
          (str "supports") s)))

/-! ## Rulebook data model -/

structure SharedMed where
  claim_verbs : List (List Nat)
  diseases : List (List Nat)
deriving DecidableEq, Repr

structure RewriteRule where
  find : List Nat
  replace : Option (List Nat)
deriving DecidableEq, Repr

inductive InlinePat
  | pstr (p : List Nat)
  | pobj (pattern : List Nat) (flags : Option (List Nat))
deriving DecidableEq, Repr

structure Category where
  id : List Nat
  label : Option (List Nat)
  severity : List Nat
  patterns_ref : Option (List Nat)
  patterns : List InlinePat
  checks : List (List Nat)
  rewrite : Option RewriteRule
deriving DecidableEq, Repr

structure RewriteDefaults where
  neutral_noun : Option (List Nat)
deriving DecidableEq, Repr

structure Limits where
  title_max : Option Nat
  description_max : Option Nat
  caption_max : Option Nat
  tags_max_count : Option Nat
  hashtags_max_count : Option Nat
deriving DecidableEq, Repr

structure Rulebook where
  limits : Option Limits
  categories : List Category
  rewrite : Option RewriteDefaults
deriving DecidableEq, Repr

/-- Model of `(rb?.rewrite?.neutral_noun) || 'overall wellness'` (`||`: an empty
string also falls back to the default). -/
def neutralNounOf (rb : Option Rulebook) : List Nat :=
  match rb with
  | some r =>
    match r.rewrite with
    | some d =>
      match d.neutral_noun with
      | some n => if n = [] then str "overall wellness" else n
      | none => str "overall wellness"
    | none => str "overall wellness"
  | none => str "overall wellness"

/-! ## `rewriteMedical` -/

/-- The value reaching the `s.length < 15` check: whitespace normalisation,
verb softening, disease neutralisation, tidying, then — when no modal verb
was detected — the `\bsupports\b → designed to support` expansion. -/
def rmPre (text : List Nat) (shared : Option SharedMed) (rb : Option Rulebook) : List Nat :=
  let style := detectStyle text
  let verbs := (shared.map SharedMed.claim_verbs).getD []
  let diseases := (shared.map SharedMed.diseases).getD []
  let s3 := tidy (nounPass diseases (neutralNounOf rb) (verbPass verbs (normWS text)))
  if style.usedModal then s3
  else replaceBound [[str "supports"]] (str "designed to support") s3

/-- The fixed safe sentence of step (f). -/
def safeSentence : List Nat :=
  str "Designed to support everyday self-care and overall wellness"

/-- Model of `rewriteMedical(text, shared, rb)`. -/
def rewriteMedical (text : List Nat) (shared : Option SharedMed) (rb : Option Rulebook) :
    List Nat :=
  let s := rmPre text shared rb
  applyStyle (if s.length < 15 then safeSentence else s) (detectStyle text)

/-- Model of `degradeToNeutral(original)`. -/
def degradeToNeutral (original : List Nat) : List Nat :=
  applyStyle (str "Designed for general use and compliant with platform guidelines.")
    (detectStyle original)

/-! ## Fields (`req.body.fields`) -/

/-- A field value: a string, or anything else (numbers, booleans, nested
values are never used by the text engine except through `buildSearchText`,
which keeps only strings). -/
inductive FVal
  | vstr (s : List Nat)
  | vother
deriving DecidableEq, Repr

abbrev Fields := List (List Nat × FVal)

/-- String-typed field access (`typeof fields.k === 'string'`). -/
def getStr (fields : Fields) (k : List Nat) : Option (List Nat) :=
  match fields.lookup k with
  | some (FVal.vstr s) => some s
  | _ => none

/-- Model of `fields.k || ''` at the engine's string use sites (a non-string truthy
value behaves like `''` in every guarded use: each site tests truthiness
and `.length` afterwards). -/
def strOr (fields : Fields) (k : List Nat) : List Nat := (getStr fields k).getD []

/-- The string-valued entries of `fields`, in order. -/
def strVals (fields : Fields) : List (List Nat) :=
  fields.filterMap fun p =>
    match p.2 with
    | FVal.vstr s => some s
    | FVal.vother => none

/-- Model of `buildSearchText`: all string-valued entries, space-joined, in order. -/
def buildSearchText (fields : Fields) : List Nat :=
  List.intercalate [32] (strVals fields)

/-- Model of `primaryTextField`. -/
def primaryTextField (fields : Fields) : Option (List Nat) :=
  if (getStr fields (str "description")).isSome then some (str "description")
  else if (getStr fields (str "caption")).isSome then some (str "caption")
  else if (getStr fields (str "title")).isSome then some (str "title")
  else none

/-- Model of `{...fields, [k]: v}`: replace the value at an existing key (object
spread keeps its position), append otherwise. -/
def setField (fields : Fields) (k : List Nat) (v : FVal) : Fields :=
  if fields.any fun p => p.1 == k then
    fields.map fun p => if p.1 == k then (p.1, v) else p
  else fields ++ [(k, v)]

/-! ## Splitting, counting and rendering helpers for the limits section -/

/-- Model of `s.split(sep)` for a single literal separator character (keeps empties). -/
def splitChar (sep : Nat) : List Nat → List (List Nat)
  | [] => [[]]
  | c :: rest =>
    if c == sep then [] :: splitChar sep rest
    else
      match splitChar sep rest with
      | t :: ts => (c :: t) :: ts
      | [] => [[c]]

/-- Model of `s.split(/[class]+/)`: separator runs delimit the pieces; a leading or
trailing separator contributes an empty piece, as in JS. -/
def splitRuns (p : Nat → Bool) : List Nat → List (List Nat)
  | [] => [[]]
  | [c] => if p c then [[], []] else [[c]]
  | c :: d :: rest =>
    if p c then
      if p d then splitRuns p (d :: rest) else [] :: splitRuns p (d :: rest)
    else
      match splitRuns p (d :: rest) with
      | t :: ts => (c :: t) :: ts
      | [] => [[c]]

/-- The separator class of `/[#\s,]+/`. -/
def hashSep (c : Nat) : Bool := c == 35 || isSpaceCh c || c == 44

/-- Decimal rendering of a number interpolated into an issue string. -/
def natToStr (n : Nat) : List Nat := (Nat.toDigits 10 n).map Char.toNat

/-- Case-sensitive literal match of `pat` at offset `i` of `s`. -/
def sliceAt (pat s : List Nat) (i : Nat) : Bool :=
  decide (i + pat.length ≤ s.length) &&
  (List.range pat.length).all fun k => s.getD (i+k) 0 == pat.getD k 0

/-- Case-insensitive literal containment (a `'i'`-flagged regex built from
an `escapeRegex`-escaped phrase, or a metacharacter-free inline pattern). -/
def hasCI (pat s : List Nat) : Bool :=
  (List.range (s.length + 1)).any fun i => sliceCIAt pat s i

/-- Case-sensitive literal containment (an unflagged inline pattern). -/
def hasExact (pat s : List Nat) : Bool :=
  (List.range (s.length + 1)).any fun i => sliceAt pat s i

/-- Model of `/^https?:\/\//i.test(s)`. -/
def startsHttp (s : List Nat) : Bool :=
  sliceCIAt (str "http://") s 0 || sliceCIAt (str "https://") s 0

/-- Global case-insensitive literal replace
(`mainText.replace(new RegExp(find, 'ig'), replace)` for a literal `find`;
the engine only reaches it with a truthy, hence non-empty, `find`). -/
def replAllF (find repl : List Nat) : Nat → List Nat → List Nat
  | _, [] => []
  | 0, _ :: _ => []
  | f+1, c :: rest =>
    if !find.isEmpty && sliceCIAt find (c :: rest) 0 then
      repl ++ replAllF find repl f ((c :: rest).drop find.length)
    else c :: replAllF find repl f rest

def replaceAllCI (find repl s : List Nat) : List Nat := replAllF find repl s.length s

/-! ## The per-platform checker (`checkWithRulebook`, `runChecks`) -/

structure FixItem where
  field : List Nat
  suggestion : List Nat
  source : Option (List Nat)
deriving DecidableEq, Repr

structure CheckRes where
  issues : List (List Nat)
  fixes : List FixItem
  high : Bool
deriving DecidableEq, Repr

structure Finding where
  url : List Nat
  severity : List Nat
  label : List Nat
deriving DecidableEq, Repr

/-- The environment: every filesystem/network access the engine performs,
as pure functions.  `rulebook` is `loadRulebook` (already keyed by the
lower-cased platform), `sharedMedical`/`sharedGlobal` the two
`loadShared` reads, `resolveRef` the phrase list a `patterns_ref` resolves
to (the file-reading part of `resolvePatternsRef`), `imageScan` the
delivered result of `scanImagesFromFields` (`none` = it threw) and
`modelResponse` the `callOllama` response (`none` = it threw). -/
structure Env where
  rulebook : List Nat → Option Rulebook
  sharedMedical : Option SharedMed
  sharedGlobal : Option (List Category)
  resolveRef : List Nat → List (List Nat)
  imageScan : Option (List Finding)
  modelResponse : Option (List Nat)

/-- One category of the `(rb?.categories || []).forEach(cat => ...)` loop. -/
def catStep (env : Env) (rb : Rulebook)
    (link searchable mainFieldKey mainText : List Nat)
    (st : CheckRes) (cat : Category) : CheckRes :=
  let isMedical :=
    match cat.patterns_ref with
    | some r => !r.isEmpty && hasCI (str "shared.medical.json") r
    | none => false
  if isMedical then
    let sharedMed := env.sharedMedical
    let verbs := ((sharedMed.map SharedMed.claim_verbs).getD []) ++
      [str "fdaapproved", str "fdacleared"]
    let diseases := (sharedMed.map SharedMed.diseases).getD []
    if verbNearNoun searchable verbs diseases 6 then
      let issues' := st.issues ++ [(cat.label).getD (str "Medical / Health Claims detected.")]
      let suggestion := rewriteMedical mainText sharedMed (some rb)
      let fixes' :=
        if suggestion ≠ [] ∧ suggestion ≠ mainText then
          st.fixes ++ [⟨mainFieldKey, suggestion, none⟩]
        else st.fixes
      ⟨issues', fixes', st.high || (cat.severity == str "high")⟩
    else st
  else
    let listPatterns :=
      match cat.patterns_ref with
      | some r => if r.isEmpty then [] else (env.resolveRef r).filter (· ≠ [])
      | none => []
    let allPats : List (List Nat × List Nat) :=
      listPatterns.map (fun p => (p, str "i")) ++
        cat.patterns.map fun ip =>
          match ip with
          | InlinePat.pstr p => (p, str "i")
          | InlinePat.pobj p fl =>
            (p, match fl with
                | some f => if f = [] then str "i" else f
                | none => str "i")
    let defLabel := (cat.label).getD (str "Policy issue detected.")
    let st1 := allPats.foldl (fun acc pr =>
      let matched :=
        if pr.2.contains 105 then hasCI pr.1 searchable else hasExact pr.1 searchable
      if matched then
        let high' := acc.high || (cat.severity == str "high")
        let issues' := if acc.issues.contains defLabel then acc.issues
                       else acc.issues ++ [defLabel]
        let fixes' :=
          match cat.rewrite with
          | some rr =>
            if rr.find ≠ [] then
              let suggestion := replaceAllCI rr.find ((rr.replace).getD (str "neutral")) mainText
              if suggestion ≠ [] ∧ suggestion ≠ mainText then
                acc.fixes ++ [⟨mainFieldKey, suggestion, none⟩]
              else acc.fixes
            else acc.fixes
          | none => acc.fixes
        ⟨issues', fixes', high'⟩
      else acc) st
    cat.checks.foldl (fun acc chk =>
      if chk = str "url_scheme_http_https" ∧ link ≠ [] then
        if !startsHttp link then
          ⟨acc.issues ++ [(cat.label).getD (str "Link policy issue.")], acc.fixes,
           acc.high || (cat.severity == str "high")⟩
        else acc
      else acc) st1

/-- Model of `checkWithRulebook(platform, fields, rb)`. -/
def checkWithRulebook (env : Env) (platform : List Nat) (fields : Fields)
    (rb : Rulebook) : CheckRes :=
  let title := strOr fields (str "title")
  let desc := strOr fields (str "description")
  let caption := strOr fields (str "caption")
  let link := strOr fields (str "link")
  let tags := strOr fields (str "tags")
  let hashtags := strOr fields (str "hashtags")
  let tmax := (rb.limits.bind Limits.title_max).getD 0
  let dmax := (rb.limits.bind Limits.description_max).getD 0
  let cmax := (rb.limits.bind Limits.caption_max).getD 0
  let tagmax := (rb.limits.bind Limits.tags_max_count).getD 0
  let hmax := (rb.limits.bind Limits.hashtags_max_count).getD 0
  let st0 : CheckRes := ⟨[], [], false⟩
  let st1 :=
    if tmax ≠ 0 ∧ title ≠ [] ∧ title.length > tmax then
      ⟨st0.issues ++ [str "Title exceeds " ++ natToStr tmax ++ str " characters."],
       st0.fixes ++ [⟨str "title", title.take tmax, none⟩], st0.high⟩
    else st0
  let st2 :=
    if dmax ≠ 0 ∧ desc ≠ [] ∧ desc.length > dmax then
      ⟨st1.issues ++ [str "Description exceeds " ++ natToStr dmax ++ str " characters."],
       st1.fixes ++ [⟨str "description", desc.take dmax, none⟩], st1.high⟩
    else st1
  let st3 :=
    if cmax ≠ 0 ∧ caption ≠ [] ∧ caption.length > cmax then
      ⟨st2.issues ++ [str "Caption exceeds " ++ natToStr cmax ++ str " characters."],
       st2.fixes ++ [⟨str "caption", caption.take cmax, none⟩], st2.high⟩
    else st2
  let st4 :=
    if tagmax ≠ 0 ∧ tags ≠ [] ∧
        (((splitChar 44 tags).map jsTrim).filter (· ≠ [])).length > tagmax then
      ⟨st3.issues ++ [str "Tags exceed " ++ natToStr tagmax ++ str " allowed."],
       st3.fixes ++ [⟨str "tags", List.intercalate [44] ((splitChar 44 tags).take tagmax), none⟩],
       st3.high⟩
    else st3
  let st5 :=
    if hmax ≠ 0 ∧ hashtags ≠ [] ∧
        (((splitRuns hashSep hashtags).map jsTrim).filter (· ≠ [])).length > hmax then
      ⟨st4.issues ++ [str "Hashtags exceed " ++ natToStr hmax ++ str " allowed."],
       st4.fixes ++ [⟨str "hashtags", List.intercalate [32] ((splitRuns hashSep hashtags).take hmax), none⟩],
       st4.high⟩
    else st4
  let platformsWithLinks : List (List Nat) :=
    [str "pinterest", str "youtube", str "tiktok", str "amazon", str "instagram",
     str "facebook", str "x", str "linkedin", str "reddit", str "snapchat", str "ebay"]
  let st6 :=
    if platformsWithLinks.contains platform ∧ link ≠ [] ∧ !startsHttp link then
      ⟨st5.issues ++ [str "Destination URL should start with http(s)://"], st5.fixes, st5.high⟩
    else st5
  let searchable := buildSearchText fields
  let mainFieldKey := (primaryTextField fields).getD (str "description")
  let mainText := strOr fields mainFieldKey
  rb.categories.foldl (catStep env rb link searchable mainFieldKey mainText) st6

/-- Model of `runChecks({platform, fields})`. -/
def runChecks (env : Env) (platform : List Nat) (fields : Fields) : CheckRes :=
  let p := jsToLower platform
  match env.rulebook p with
  | none => ⟨[str "No rulebook found for " ++ p], [], true⟩
  | some rb =>
    let rbMerged :=
      match env.sharedGlobal with
      | some cats => { rb with categories := rb.categories ++ cats }
      | none => rb
    checkWithRulebook env p fields rbMerged

/-! ## Verdict levels -/

inductive Level | green | yellow | red
deriving DecidableEq, Repr

/-- Model of `issues.length===0 ? 'green' : (high ? 'red' : 'yellow')`. -/
def levelOf (issues : List (List Nat)) (high : Bool) : Level :=
  if issues.isEmpty then .green else if high then .red else .yellow

/-- The severity order `{ red:3, yellow:2, green:1 }`. -/
def rank : Level → Nat
  | .red => 3
  | .yellow => 2
  | .green => 1

/-! ## `parseModelOutput` -/

/-- Model of `/Label:\s*(green|yellow|red)/i` tried at the head of `s`: the literal
`Label:`, the greedy whitespace run, then the first alternative that
matches; the captured group lower-cased is the alternative itself. -/
def matchLabelAt (s : List Nat) : Option (List Nat) :=
  match matchCIlit (str "Label:") s with
  | none => none
  | some r =>
    let r' := r.dropWhile isSpaceCh
    if sliceCIAt (str "green") r' 0 then some (str "green")
    else if sliceCIAt (str "yellow") r' 0 then some (str "yellow")
    else if sliceCIAt (str "red") r' 0 then some (str "red")
    else none

def scanLabel : List Nat → Option (List Nat)
  | [] => none
  | c :: rest =>
    match matchLabelAt (c :: rest) with
    | some l => some l
    | none => scanLabel rest

/-- Model of `/Rewrite:\s*([\s\S]*)$/i` tried at the head of `s`: the capture is the
remainder after the greedy whitespace run; the engine then `.trim()`s it. -/
def matchRewriteAt (s : List Nat) : Option (List Nat) :=
  match matchCIlit (str "Rewrite:") s with
  | none => none
  | some r => some (jsTrim (r.dropWhile isSpaceCh))

def scanRewrite : List Nat → Option (List Nat)
  | [] => none
  | c :: rest =>
    match matchRewriteAt (c :: rest) with
    | some t => some t
    | none => scanRewrite rest

structure ParsedOut where
  label : List Nat
  rewrite : Option (List Nat)
deriving DecidableEq, Repr

/-- Model of `parseModelOutput(text)`. -/
def parseModelOutput (text : List Nat) : ParsedOut :=
  { label := (scanLabel text).getD (str "unknown")
  , rewrite := scanRewrite text }

/-! ## Image heuristics (`IMG_EXT`, `detectImageIssues`, the scan loop) -/

/-- The alternatives of `/\.(png|jpe?g|gif|webp|bmp|tiff?|svg)(\?.*)?$/i`. -/
def imgExtAlts : List (List Nat) :=
  [str "png", str "jpg", str "jpeg", str "gif", str "webp", str "bmp",
   str "tif", str "tiff", str "svg"]

/-- Model of `(\?.*)?$`: nothing, or `?` followed by line-terminator-free text. -/
def imgTailOk (t : List Nat) : Bool :=
  t.isEmpty || (t.headD 0 == 63 &&
    t.all fun c => c ≠ 10 && c ≠ 13 && c ≠ 8232 && c ≠ 8233)

/-- A match of `IMG_EXT` beginning at this suffix. -/
def imgExtHere : List Nat → Bool
  | 46 :: rest =>
    imgExtAlts.any fun ext =>
      jsToLower (rest.take ext.length) == jsToLower ext &&
      imgTailOk (rest.drop ext.length)
  | _ => false

/-- Model of `IMG_EXT.test(s)`. -/
def imgExtTest (s : List Nat) : Bool := s.tails.any imgExtHere

/-- Model of `hasToken(token)` of `detectImageIssues`: some occurrence of `token`
whose neighbours (when present) are not `[a-z0-9]`.  The source iterates
over `indexOf` positions; positions where the token does not occur fail the
occurrence test here, so scanning every offset is equivalent. -/
def hasTokenB (tok s : List Nat) : Bool :=
  (List.range (s.length + 1)).any fun i =>
    sliceAt tok s i &&
    (i == 0 || !isAlnum (s.getD (i-1) 0)) &&
    !isAlnum (s.getD (i + tok.length) 0)

structure FileInfo where
  path : List Nat
  size : Nat
  contentType : List Nat
deriving DecidableEq, Repr

/-- Model of `` `${url} ${fileInfo?.path || ''}`.toLowerCase() ``. -/
def pathishOf (url : List Nat) (fileInfo : Option FileInfo) : List Nat :=
  jsToLower (url ++ [32] ++ (fileInfo.map FileInfo.path).getD [])

/-- NSFW/adult token hints (high). -/
def nsfwCond (pathish : List Nat) : Bool :=
  hasTokenB (str "nsfw") pathish || hasTokenB (str "onlyfans") pathish ||
  hasTokenB (str "porn") pathish || hasTokenB (str "xxx") pathish ||
  hasTokenB (str "explicit") pathish || hasTokenB (str "adult") pathish

/-- Violence/gore token hints (high). -/
def violenceCond (pathish : List Nat) : Bool :=
  hasTokenB (str "gore") pathish || hasTokenB (str "blood") pathish ||
  hasTokenB (str "beheading") pathish || hasTokenB (str "decap") pathish ||
  hasTokenB (str "dismember") pathish

/-- Counterfeit hints (medium): `replica`, `/super[-_]?copy/i`, `/1[:\-_]1/i`. -/
def counterfeitCond (pathish : List Nat) : Bool :=
  hasTokenB (str "replica") pathish ||
  hasCI (str "supercopy") pathish || hasCI (str "super-copy") pathish ||
  hasCI (str "super_copy") pathish ||
  hasCI (str "1:1") pathish || hasCI (str "1-1") pathish || hasCI (str "1_1") pathish

/-- QR / scan-bait hints (medium): `qrcode`, `/\bscan[-_]?me\b/i`, `qr`. -/
def qrCond (pathish : List Nat) : Bool :=
  hasTokenB (str "qrcode") pathish ||
  hasWordCI (str "scanme") pathish || hasWordCI (str "scan-me") pathish ||
  hasWordCI (str "scan_me") pathish || hasTokenB (str "qr") pathish

/-- Content-type mismatch on a completed download (high). -/
def ctCond (url : List Nat) : Option FileInfo → Bool
  | some fi =>
    !(jsToLower fi.contentType).isEmpty &&
    !sliceAt (str "image/") (jsToLower fi.contentType) 0 &&
    imgExtTest url
  | none => false

/-- Model of `detectImageIssues(url, fileInfo)` (engine variant of part_002):
`(severity, label)` pairs in push order. -/
def detectImageIssues (url : List Nat) (fileInfo : Option FileInfo) :
    List (List Nat × List Nat) :=
  let pathish := pathishOf url fileInfo
  (if nsfwCond pathish then [(str "high", str "NSFW / Adult content (image hint)")] else []) ++
  (if violenceCond pathish then [(str "high", str "Graphic violence (image hint)")] else []) ++
  (if counterfeitCond pathish then
    [(str "medium", str "Counterfeit / Replica (image hint)")] else []) ++
  (if qrCond pathish then
    [(str "medium", str "QR / Scan code solicitation (image hint)")] else []) ++
  (if ctCond url fileInfo then
    [(str "high", str "Content-Type mismatch on image download")] else [])

/-- The `for (const url of urls)` loop of `scanImagesFromFields`: the
URL-only pass, then the post-download pass (or the fetch-failed finding)
per URL.  `download` models `downloadImage` (`none` = it threw). -/
def scanLoop (download : List Nat → Option FileInfo) : List (List Nat) → List Finding
  | [] => []
  | url :: rest =>
    let urlOnly := (detectImageIssues url none).map fun h => Finding.mk url h.1 h.2
    let after :=
      match download url with
      | some info => (detectImageIssues url (some info)).map fun h => Finding.mk url h.1 h.2
      | none =>
        if imgExtTest url then
          [Finding.mk url (str "medium") (str "Image fetch failed (non-blocking)")]
        else []
    urlOnly ++ after ++ scanLoop download rest

/-! ## The verdict orchestrator (`app.post('/api/check')`) -/

/-- Model of `` `${hit.label}${hit.url ? ` [${hit.url}]` : ''}` ``. -/
def mergeLabel (f : Finding) : List Nat :=
  f.label ++ (if f.url ≠ [] then str " [" ++ f.url ++ str "]" else [])

/-- The issue strings appended by the image-merge loop. -/
def mergeImageIssues (issues : List (List Nat)) (findings : List Finding) :
    List (List Nat) :=
  issues ++ findings.map mergeLabel

def anyHigh (findings : List Finding) : Bool :=
  findings.any fun f => f.severity == str "high"

structure ModelOut where
  label : List Nat
  rewrite : Option (List Nat)
  isError : Bool
deriving DecidableEq, Repr

structure Verdict where
  level : Level
  issues : List (List Nat)
  fixes : List FixItem
  model : Option ModelOut
  imageFindings : List Finding
deriving DecidableEq, Repr

/-- Step 2 of the orchestrator: merge the image findings (if scanning is on
and `scanImagesFromFields` did not throw) and recompute the level when any
finding arrived.  Returns `(issues, high, level, imageFindings)`. -/
def imageStep (scanImages : Bool) (scanRes : Option (List Finding))
    (issues : List (List Nat)) (high : Bool) (level : Level) :
    List (List Nat) × Bool × Level × List Finding :=
  if scanImages then
    match scanRes with
    | none => (issues, high, level, [])
    | some fs =>
      if fs.isEmpty then (issues, high, level, fs)
      else
        let issues' := mergeImageIssues issues fs
        let high' := high || anyHigh fs
        (issues', high', levelOf issues' high', fs)
  else (issues, high, level, [])

/-- Step 3 of the orchestrator: re-check the first fix proposed for the
primary text field; in strict mode adopt the recomputed level and issues
when same-or-better. -/
def recheckStep (env : Env) (platform : List Nat) (fields : Fields)
    (strictMode : Bool) (fixes : List FixItem)
    (level : Level) (issues : List (List Nat)) : Level × List (List Nat) :=
  match primaryTextField fields with
  | none => (level, issues)
  | some mf =>
    match fixes.find? fun f => f.field == mf with
    | none => (level, issues)
    | some fx =>
      if fx.suggestion = [] then (level, issues)
      else
        let second := runChecks env platform (setField fields mf (FVal.vstr fx.suggestion))
        let secondLevel := levelOf second.issues second.high
        if strictMode then
          if rank secondLevel ≤ rank level then (secondLevel, second.issues)
          else (level, issues)
        else (level, issues)

/-- Step 4 of the orchestrator: the local-LLM augmentation.  Returns
`(level, issues, fixes, model)`. -/
def modelStep (env : Env) (platform : List Nat) (fields : Fields)
    (strictMode : Bool) (mainField : Option (List Nat))
    (level : Level) (issues : List (List Nat)) (fixes : List FixItem) :
    Level × List (List Nat) × List FixItem × Option ModelOut :=
  if level = Level.green then (level, issues, fixes, none)
  else
    match env.rulebook (jsToLower platform) with
    | none => (level, issues, fixes, none)
    | some _ =>
      match env.modelResponse with
      | none => (level, issues, fixes, some ⟨[], none, true⟩)
      | some output =>
        let parsed := parseModelOutput output
        match parsed.rewrite with
        | some rw =>
          if rw = [] then (level, issues, fixes, some ⟨parsed.label, none, false⟩)
          else
            let key := mainField.getD (str "description")
            let recheck := runChecks env platform (setField fields key (FVal.vstr rw))
            let reLevel := levelOf recheck.issues recheck.high
            let finalRewrite :=
              if strictMode ∧ reLevel ≠ Level.green then degradeToNeutral rw else rw
            let m := some (ModelOut.mk parsed.label (some finalRewrite) false)
            if strictMode then
              if rank reLevel < rank level then (reLevel, recheck.issues, fixes, m)
              else (level, issues, fixes, m)
            else
              match mainField with
              | some mf =>
                if finalRewrite ≠ [] then
                  (level, issues, fixes ++ [⟨mf, finalRewrite, some (str "model")⟩], m)
                else (level, issues, fixes, m)
              | none => (level, issues, fixes, m)
        | none => (level, issues, fixes, some ⟨parsed.label, none, false⟩)

/-- The orchestrator: text checks, image merge, strict-mode fix re-check,
model augmentation, response. -/
def apiCheck (env : Env) (platform : List Nat) (fields : Fields)
    (strictMode scanImages : Bool) : Verdict :=
  let c1 := runChecks env platform fields
  let level1 := levelOf c1.issues c1.high
  let s2 := imageStep scanImages env.imageScan c1.issues c1.high level1
  let s3 := recheckStep env platform fields strictMode c1.fixes s2.2.2.1 s2.1
  let mainField := primaryTextField fields
  let s4 := modelStep env platform fields strictMode mainField s3.1 s3.2 c1.fixes
  { level := s4.1, issues := s4.2.1, fixes := s4.2.2.1, model := s4.2.2.2,
    imageFindings := s2.2.2.2 }

/-! ## `extractImageUrls`

JS values can be cyclic, so the nested `fields` value is modelled as a heap:
references point into a finite store of array/object nodes.  The traversal
is the source's `collect`, made iterative with an explicit depth-first
stack (identical visit order); the fuel counts traversal steps, and a
`none` result means the recursion never finishes within that budget. -/

inductive HVal
  | vstr (s : List Nat)
  | vref (r : Nat)
  | vother
deriving DecidableEq, Repr

inductive HNode
  | harr (items : List HVal)
  | hobj (entries : List (List Nat × HVal))
deriving DecidableEq, Repr

abbrev Heap := List (Nat × HNode)

def keyHints : List (List Nat) :=
  [str "image", str "image_url", str "imageurl", str "imageURL", str "imageUrl",
   str "thumbnail", str "thumb", str "cover", str "banner", str "photo",
   str "picture", str "pic", str "images", str "photos", str "media",
   str "media_url", str "mediaUrl", str "mediaURLs", str "mediaUrls"]

/-- JS `Set` insertion. -/
def addUrl (urls : List (List Nat)) (u : List Nat) : List (List Nat) :=
  if urls.contains u then urls else urls ++ [u]

/-- A character of `[^\s"'()<>]`. -/
def urlRunCh (c : Nat) : Bool :=
  notSpaceCh c && c ≠ 34 && c ≠ 39 && c ≠ 40 && c ≠ 41 && c ≠ 60 && c ≠ 62

/-- All matches of `URL_LIKE = /https?:\/\/[^\s"'()<>]+/ig`, in order. -/
def urlLikeF : Nat → List Nat → List (List Nat)
  | _, [] => []
  | 0, _ :: _ => []
  | f+1, c :: rest =>
    let s := c :: rest
    if startsHttp s then
      let plen := if sliceCIAt (str "https://") s 0 then 8 else 7
      let run := (s.drop plen).takeWhile urlRunCh
      if run = [] then urlLikeF f rest
      else (s.take plen ++ run) :: urlLikeF f (s.drop (plen + run.length))
    else urlLikeF f rest

def urlLike (s : List Nat) : List (List Nat) := urlLikeF s.length s

/-- The string branch of `collect`. -/
def collectString (urls : List (List Nat)) (s keyHint : List Nat) : List (List Nat) :=
  let urls1 :=
    if startsHttp s && (imgExtTest s || keyHints.contains (jsToLower keyHint)) then
      addUrl urls s
    else urls
  (urlLike s).foldl (fun acc u => if imgExtTest u then addUrl acc u else acc) urls1

/-- Model of `val.url || val.src || val.href`: the first truthy of the three. -/
def firstCandidate (entries : List (List Nat × HVal)) : Option HVal :=
  let truthy : Option HVal → Option HVal := fun v =>
    match v with
    | some (HVal.vstr s) => if s = [] then none else some (HVal.vstr s)
    | some v => some v
    | none => none
  (truthy (entries.lookup (str "url"))).orElse fun _ =>
    (truthy (entries.lookup (str "src"))).orElse fun _ =>
      truthy (entries.lookup (str "href"))

/-- The depth-first traversal of `collect`, with the source's branch order:
falsy values return, strings collect URLs, arrays recurse into their items
with the same key hint — and, as in the source, WITHOUT consulting the
visited set — and plain objects are skipped when already visited, marked,
probed for a `url`/`src`/`href` candidate, then recursed entry-wise with
each key as the new hint.  State is `(visited, urls)`. -/
def collectF (heap : Heap) :
    Nat → List Nat × List (List Nat) → List (HVal × List Nat) →
    Option (List Nat × List (List Nat))
  | _, st, [] => some st
  | 0, _, _ :: _ => none
  | f+1, st, (v, keyHint) :: stack =>
    match v with
    | HVal.vother => collectF heap f st stack
    | HVal.vstr s =>
      if s = [] then collectF heap f st stack
      else collectF heap f (st.1, collectString st.2 s keyHint) stack
    | HVal.vref r =>
      match heap.lookup r with
      | none => collectF heap f st stack
      | some (HNode.harr items) =>
        collectF heap f st (items.map (fun it => (it, keyHint)) ++ stack)
      | some (HNode.hobj entries) =>
        if st.1.contains r then collectF heap f st stack
        else
          let st1 := (st.1 ++ [r], st.2)
          let st2 :=
            match firstCandidate entries with
            | some (HVal.vstr cs) =>
              if startsHttp cs &&
                  (imgExtTest cs || keyHints.contains (jsToLower keyHint)) then
                (st1.1, addUrl st1.2 cs)
              else st1
            | _ => st1
          collectF heap f st2 (entries.map (fun e => (e.2, e.1)) ++ stack)

/-- Model of `extractImageUrls(fields)` run with a step budget: `some urls` when the
traversal finishes, `none` when it exhausts the budget. -/
def extractImageUrls (heap : Heap) (fields : HVal) (fuel : Nat) :
    Option (List (List Nat)) :=
  (collectF heap fuel ([], []) [(fields, [])]).map Prod.snd

/-- The spec-side description of the exact two-line model-response format:
`Label: <green|yellow|red>` then a newline then `Rewrite: <text>`. -/
def labelWords : List (List Nat) := [str "green", str "yellow", str "red"]

def exactTwoLine (s : List Nat) : Prop :=
  ∃ l ∈ labelWords, ∃ t : List Nat,
    s = str "Label: " ++ l ++ [10] ++ str "Rewrite: " ++ t

/-! ## C7: cycle safety of `extractImageUrls` -/

/-- A self-referential array: `a = []; a.push(a)`. -/
def cyclicArrHeap : Heap := [(0, HNode.harr [HVal.vref 0])]

/-- A self-referential plain object carrying one image URL. -/
def cyclicObjHeap : Heap :=
  [(0, HNode.hobj [(str "self", HVal.vref 0),
                   (str "image", HVal.vstr (str "https://x.io/a.png"))])]

/-! ## C1: severity aggregation of the orchestrator -/

/-- A rulebook with only a description length limit. -/
def rbLimitsOnly : Rulebook :=
  { limits := some ⟨none, some 10, none, none, none⟩, categories := [], rewrite := none }

def envC1 : Env :=
  { rulebook := fun p => if p = str "etsy" then some rbLimitsOnly else none
  , sharedMedical := none
  , sharedGlobal := none
  , resolveRef := fun _ => []
  , imageScan := some [⟨str "https://cdn.x/nsfw_a.png", str "high",
      str "NSFW / Adult content (image hint)"⟩]
  , modelResponse := none }

def fieldsC1 : Fields := [(str "description", FVal.vstr (str "aaaaaaaaaaaa"))]

theorem dEdF_fuel (a b : List Nat) :
    ∀ f g i j, i + j ≤ f → i + j ≤ g → dEdF a b f i j = dEdF a b g i j := by
  intro f
  induction f with
  | zero =>
    intro g i j hf _
    match i, j with
    | 0, j => cases g <;> rfl
    | i+1, 0 => cases g <;> rfl
    | i+1, j+1 => omega
  | succ f ih =>
    intro g i j hf hg
    match g, i, j with
    | 0, 0, j => rfl
    | 0, i+1, 0 => rfl
    | 0, i+1, j+1 => omega
    | g+1, 0, j => rfl
    | g+1, i+1, 0 => rfl
    | g+1, i+1, j+1 =>
      have h1 : dEdF a b f i (j+1) = dEdF a b g i (j+1) := ih g i (j+1) (by omega) (by omega)
      have h2 : dEdF a b f (i+1) j = dEdF a b g (i+1) j := ih g (i+1) j (by omega) (by omega)
      have h3 : dEdF a b f i j = dEdF a b g i j := ih g i j (by omega) (by omega)
      have h4 : dEdF a b f (i-1) (j-1) = dEdF a b g (i-1) (j-1) :=
        ih g (i-1) (j-1) (by omega) (by omega)
      simp only [dEdF, h1, h2, h3, h4]

theorem dEdF_self (a : List Nat) :
    ∀ f i, i + i ≤ f → dEdF a a f i i = 0 := by
  intro f
  induction f with
  | zero =>
    intro i h
    obtain rfl : i = 0 := by omega
    rfl
  | succ f ih =>
    intro i h
    match i with
    | 0 => rfl
    | i+1 =>
      have h3 : dEdF a a f i i = 0 := ih i (by omega)
      simp only [dEdF, h3, eq_self_iff_true, if_true]
      split <;> omega

theorem dEdF_symm (a b : List Nat) :
    ∀ f i j, i + j ≤ f → dEdF a b f i j = dEdF b a f j i := by
  intro f
  induction f with
  | zero =>
    intro i j h
    match i, j with
    | 0, 0 => rfl
    | 0, j+1 => omega
    | i+1, j => omega
  | succ f ih =>
    intro i j h
    match i, j with
    | 0, 0 => rfl
    | 0, j+1 => rfl
    | i+1, 0 => rfl
    | i+1, j+1 =>
      have h1 : dEdF a b f i (j+1) = dEdF b a f (j+1) i := ih i (j+1) (by omega)
      have h2 : dEdF a b f (i+1) j = dEdF b a f j (i+1) := ih (i+1) j (by omega)
      have h3 : dEdF a b f i j = dEdF b a f j i := ih i j (by omega)
      have h4 : dEdF a b f (i-1) (j-1) = dEdF b a f (j-1) (i-1) := ih (i-1) (j-1) (by omega)
      simp only [dEdF, h1, h2, h3, h4]
      by_cases hc : a.getD i 0 = b.getD j 0
      · by_cases ht : 1 ≤ i ∧ 1 ≤ j ∧ a.getD i 0 = b.getD (j-1) 0 ∧ a.getD (i-1) 0 = b.getD j 0
        · rw [if_pos hc, if_pos hc.symm, if_pos ht,
            if_pos (by exact ⟨ht.2.1, ht.1, ht.2.2.2.symm, ht.2.2.1.symm⟩)]
          omega
        · rw [if_pos hc, if_pos hc.symm, if_neg ht, if_neg (by
            rintro ⟨q1, q2, q3, q4⟩; exact ht ⟨q2, q1, q4.symm, q3.symm⟩)]
          omega
      · have hc' : ¬ b.getD j 0 = a.getD i 0 := fun q => hc q.symm
        by_cases ht : 1 ≤ i ∧ 1 ≤ j ∧ a.getD i 0 = b.getD (j-1) 0 ∧ a.getD (i-1) 0 = b.getD j 0
        · rw [if_neg hc, if_neg hc', if_pos ht,
            if_pos (by exact ⟨ht.2.1, ht.1, ht.2.2.2.symm, ht.2.2.1.symm⟩)]
          omega
        · rw [if_neg hc, if_neg hc', if_neg ht, if_neg (by
            rintro ⟨q1, q2, q3, q4⟩; exact ht ⟨q2, q1, q4.symm, q3.symm⟩)]
          omega

theorem editDistance_self_eq_zero (a : List Nat) : editDistance a a = 0 := by
  unfold editDistance
  exact dEdF_self _ _ _ (by omega)

theorem editDistance_comm (a b : List Nat) : editDistance a b = editDistance b a := by
  unfold editDistance
  rw [dEdF_symm _ _ _ _ _ (le_refl _)]
  exact dEdF_fuel _ _ _ _ _ _ (by omega) (by omega)

theorem tokF_fuel : ∀ f g s, s.length ≤ f → s.length ≤ g → tokF f s = tokF g s := by
  intro f
  induction f with
  | zero =>
    intro g s hf _
    have hs : s = [] := by cases s <;> simp_all
    subst hs; simp [tokF]
  | succ f ih =>
    intro g s hf hg
    match g, s with
    | _, [] => simp [tokF]
    | 0, c :: rest => simp at hg
    | g+1, c :: rest =>
      simp only [tokF]
      by_cases hA : isAlnum c = true
      · simp only [hA, if_true]
        have hl := (List.dropWhile_sublist (l := rest) isAlnum).length_le
        rw [ih g (rest.dropWhile isAlnum) (by simp at hf; omega) (by simp at hg; omega)]
      · simp only [hA, if_false]
        exact ih g rest (by simp at hf; omega) (by simp at hg; omega)

theorem tokenize_cons (c : Nat) (rest : List Nat) :
    tokenize (c :: rest) =
      if isAlnum c then
        (c :: rest.takeWhile isAlnum) :: tokenize (rest.dropWhile isAlnum)
      else tokenize rest := by
  show tokF (rest.length + 1) (c :: rest) = _
  simp only [tokF]
  by_cases hA : isAlnum c = true
  · simp only [hA, if_true]
    have hl := (List.dropWhile_sublist (l := rest) isAlnum).length_le
    rw [tokF_fuel _ _ _ (by omega) (le_refl _)]
    rfl
  · simp only [hA, if_false]
    exact tokF_fuel _ _ _ (by omega) (le_refl _)

theorem wordsF_fuel : ∀ f g s, s.length ≤ f → s.length ≤ g → wordsF f s = wordsF g s := by
  intro f
  induction f with
  | zero =>
    intro g s hf _
    have hs : s = [] := by cases s <;> simp_all
    subst hs; simp [wordsF]
  | succ f ih =>
    intro g s hf hg
    match g, s with
    | _, [] => simp [wordsF]
    | 0, c :: rest => simp at hg
    | g+1, c :: rest =>
      simp only [wordsF]
      by_cases hA : notSpaceCh c = true
      · simp only [hA, if_true]
        have hl := (List.dropWhile_sublist (l := rest) notSpaceCh).length_le
        rw [ih g (rest.dropWhile notSpaceCh) (by simp at hf; omega) (by simp at hg; omega)]
      · simp only [hA, if_false]
        exact ih g rest (by simp at hf; omega) (by simp at hg; omega)

theorem wordsOf_cons (c : Nat) (rest : List Nat) :
    wordsOf (c :: rest) =
      if notSpaceCh c then
        (c :: rest.takeWhile notSpaceCh) :: wordsOf (rest.dropWhile notSpaceCh)
      else wordsOf rest := by
  show wordsF (rest.length + 1) (c :: rest) = _
  simp only [wordsF]
  by_cases hA : notSpaceCh c = true
  · simp only [hA, if_true]
    have hl := (List.dropWhile_sublist (l := rest) notSpaceCh).length_le
    rw [wordsF_fuel _ _ _ (by omega) (le_refl _)]
    rfl
  · simp only [hA, if_false]
    exact wordsF_fuel _ _ _ (by omega) (le_refl _)

theorem titleF_fuel : ∀ f g s, s.length ≤ f → s.length ≤ g → titleF f s = titleF g s := by
  intro f
  induction f with
  | zero =>
    intro g s hf _
    have hs : s = [] := by cases s <;> simp_all
    subst hs; simp [titleF]
  | succ f ih =>
    intro g s hf hg
    match g, s with
    | _, [] => simp [titleF]
    | 0, c :: rest => simp at hg
    | g+1, c :: rest =>
      simp only [titleF]
      by_cases hA : isWordCh c = true
      · rw [if_pos hA, if_pos hA]
        have hl := (List.dropWhile_sublist (l := rest) notSpaceCh).length_le
        rw [ih g (rest.dropWhile notSpaceCh) (by simp at hf; omega) (by simp at hg; omega)]
      · rw [if_neg hA, if_neg hA,
          ih g rest (by simp at hf; omega) (by simp at hg; omega)]

theorem titleCase_cons (c : Nat) (rest : List Nat) :
    titleCase (c :: rest) =
      if isWordCh c then
        (upChar c :: (rest.takeWhile notSpaceCh).map lowChar) ++
          titleCase (rest.dropWhile notSpaceCh)
      else c :: titleCase rest := by
  show titleF (rest.length + 1) (c :: rest) = _
  simp only [titleF]
  by_cases hA : isWordCh c = true
  · rw [if_pos hA, if_pos hA]
    have hl := (List.dropWhile_sublist (l := rest) notSpaceCh).length_le
    rw [titleF_fuel _ _ _ (by omega) (le_refl _)]
    rfl
  · rw [if_neg hA, if_neg hA,
      titleF_fuel _ _ _ (by omega) (le_refl _)]
    rfl

theorem collWSF_fuel : ∀ f g s, s.length ≤ f → s.length ≤ g → collWSF f s = collWSF g s := by
  intro f
  induction f with
  | zero =>
    intro g s hf _
    have hs : s = [] := by cases s <;> simp_all
    subst hs; simp [collWSF]
  | succ f ih =>
    intro g s hf hg
    match g, s with
    | _, [] => simp [collWSF]
    | 0, c :: rest => simp at hg
    | g+1, c :: rest =>
      simp only [collWSF]
      by_cases hA : isSpaceCh c = true
      · rw [if_pos hA, if_pos hA]
        have hl := (List.dropWhile_sublist (l := rest) isSpaceCh).length_le
        rw [ih g (rest.dropWhile isSpaceCh) (by simp at hf; omega) (by simp at hg; omega)]
      · rw [if_neg hA, if_neg hA,
          ih g rest (by simp at hf; omega) (by simp at hg; omega)]

theorem collapseWS_cons (c : Nat) (rest : List Nat) :
    collapseWS (c :: rest) =
      if isSpaceCh c then 32 :: collapseWS (rest.dropWhile isSpaceCh)
      else c :: collapseWS rest := by
  show collWSF (rest.length + 1) (c :: rest) = _
  simp only [collWSF]
  by_cases hA : isSpaceCh c = true
  · rw [if_pos hA, if_pos hA]
    have hl := (List.dropWhile_sublist (l := rest) isSpaceCh).length_le
    rw [collWSF_fuel _ _ _ (by omega) (le_refl _)]
    rfl
  · rw [if_neg hA, if_neg hA,
      collWSF_fuel _ _ _ (by omega) (le_refl _)]
    rfl

theorem chunkF_fuel : ∀ f g s, s.length ≤ f → s.length ≤ g → chunkF f s = chunkF g s := by
  intro f
  induction f with
  | zero =>
    intro g s hf _
    have hs : s = [] := by cases s <;> simp_all
    subst hs; simp [chunkF]
  | succ f ih =>
    intro g s hf hg
    match g, s with
    | _, [] => simp [chunkF]
    | 0, c :: rest => simp at hg
    | g+1, c :: rest =>
      simp only [chunkF]
      have hl := (List.dropWhile_sublist (l := rest)
        fun d => isWordCh d == isWordCh c).length_le
      rw [ih g (rest.dropWhile fun d => isWordCh d == isWordCh c)
        (by simp at hf; omega) (by simp at hg; omega)]

theorem chunkSplit_cons (c : Nat) (rest : List Nat) :
    chunkSplit (c :: rest) =
      (c :: rest.takeWhile fun d => isWordCh d == isWordCh c) ::
        chunkSplit (rest.dropWhile fun d => isWordCh d == isWordCh c) := by
  show chunkF (rest.length + 1) (c :: rest) = _
  simp only [chunkF]
  have hl := (List.dropWhile_sublist (l := rest)
    fun d => isWordCh d == isWordCh c).length_le
  rw [chunkF_fuel _ _ _ (by omega) (le_refl _)]
  rfl

theorem chunkF_subset : ∀ f s w, w ∈ chunkF f s → ∀ c ∈ w, c ∈ s := by
  intro f
  induction f with
  | zero =>
    intro s w hw
    cases s <;> simp [chunkF] at hw
  | succ f ih =>
    intro s w hw c hc
    match s with
    | [] => simp [chunkF] at hw
    | d :: rest =>
      simp only [chunkF, List.mem_cons] at hw
      rcases hw with h | h
      · subst h
        rcases hc with _ | hc
        · exact List.mem_cons_self _ _
        · rename_i hc
          exact List.mem_cons_of_mem _
            ((List.takeWhile_sublist _).subset (by assumption))
      · exact List.mem_cons_of_mem _
          ((List.dropWhile_sublist _).subset (ih _ _ h c hc))

theorem chunkSplit_subset (s w : List Nat) (hw : w ∈ chunkSplit s) :
    ∀ c ∈ w, c ∈ s := chunkF_subset _ _ _ hw

theorem matchCIlit_suffix (w s r : List Nat) (h : matchCIlit w s = some r) :
    r <:+ s := by
  unfold matchCIlit at h
  split at h
  · cases h; exact List.drop_suffix _ _
  · cases h

theorem matchSeq_suffix : ∀ ws s r, matchSeq ws s = some r → r <:+ s := by
  intro ws
  induction ws with
  | nil => intro s r h; cases h; exact List.suffix_refl _
  | cons w ws ih =>
    intro s r h
    match ws with
    | [] => exact matchCIlit_suffix _ _ _ h
    | w' :: ws' =>
      simp only [matchSeq] at h
      cases hm : matchCIlit w s with
      | none => rw [hm] at h; cases h
      | some r0 =>
        rw [hm] at h
        dsimp only at h
        by_cases hsp : r0.takeWhile isSpaceCh = []
        · rw [if_pos hsp] at h; cases h
        · rw [if_neg hsp] at h
          exact (ih _ _ h).trans
            ((List.dropWhile_suffix _).trans (matchCIlit_suffix _ _ _ hm))

theorem rbgF_mem (alts : List (List (List Nat))) (repl : List Nat) :
    ∀ f prevW s c, c ∈ rbgF alts repl f prevW s → c ∈ s ∨ c ∈ repl := by
  intro f
  induction f with
  | zero =>
    intro prevW s c hc
    cases s <;> simp [rbgF] at hc
  | succ f ih =>
    intro prevW s c hc
    match s with
    | [] => simp [rbgF] at hc
    | d :: rest =>
      simp only [rbgF] at hc
      cases hm :
        (if prevW then none
         else alts.findSome? fun alt =>
           (matchSeq alt (d :: rest)).filter fun r => !isWordCh (r.headD 0)) with
      | none =>
        rw [hm] at hc
        simp only [List.mem_cons] at hc
        rcases hc with h | h
        · exact Or.inl (h ▸ List.mem_cons_self _ _)
        · rcases ih _ _ _ h with h' | h'
          · exact Or.inl (List.mem_cons_of_mem _ h')
          · exact Or.inr h'
      | some r =>
        rw [hm] at hc
        have hr : r <:+ (d :: rest) := by
          by_cases hp : prevW
          · simp [hp] at hm
          · simp only [hp, if_false] at hm
            obtain ⟨alt, -, halt⟩ := List.exists_of_findSome?_eq_some hm
            rcases ho : matchSeq alt (d :: rest) with _ | r0
            · rw [ho] at halt; simp [Option.filter] at halt
            · rw [ho] at halt
              simp only [Option.filter] at halt
              split at halt
              · cases halt; exact matchSeq_suffix _ _ _ ho
              · cases halt
        dsimp only at hc
        by_cases hlt : r.length < rest.length + 1
        · rw [if_pos hlt] at hc
          rcases List.mem_append.mp hc with h | h
          · exact Or.inr h
          · rcases ih _ _ _ h with h' | h'
            · exact Or.inl (hr.sublist.subset h')
            · exact Or.inr h'
        · rw [if_neg hlt] at hc
          simp only [List.mem_cons] at hc
          rcases hc with h | h
          · exact Or.inl (h ▸ List.mem_cons_self _ _)
          · rcases ih _ _ _ h with h' | h'
            · exact Or.inl (List.mem_cons_of_mem _ h')
            · exact Or.inr h'

theorem replaceBound_mem (alts : List (List (List Nat))) (repl s : List Nat)
    (c : Nat) (hc : c ∈ replaceBound alts repl s) : c ∈ s ∨ c ∈ repl :=
  rbgF_mem _ _ _ _ _ _ hc

/-! ## Lemmas about the literal matchers on appended strings -/

theorem sliceCIAt_zero_append (pat u t : List Nat) (h : pat.length ≤ u.length) :
    sliceCIAt pat (u ++ t) 0 = sliceCIAt pat u 0 := by
  unfold sliceCIAt
  have h1 : decide (0 + pat.length ≤ (u ++ t).length) = true := by
    simp only [decide_eq_true_eq, List.length_append]; omega
  have h2 : decide (0 + pat.length ≤ u.length) = true := by
    simp only [decide_eq_true_eq]; omega
  rw [h1, h2]
  simp only [Bool.true_and]
  rw [Bool.eq_iff_iff]
  simp only [List.all_eq_true, List.mem_range]
  constructor <;> intro hall k hk
  · have hx := hall k hk
    rwa [List.getD_append _ _ _ _ (by omega)] at hx
  · have hx := hall k hk
    rwa [List.getD_append _ _ _ _ (by omega)]

theorem matchCIlit_append (w u t : List Nat) (h : w.length ≤ u.length) :
    matchCIlit w (u ++ t) =
      if jsToLower (u.take w.length) = jsToLower w then some (u.drop w.length ++ t)
      else none := by
  unfold matchCIlit
  rw [List.take_append_of_le_length h, List.drop_append_of_le_length h]

theorem dropWhile_idem (p : Nat → Bool) (l : List Nat) :
    (l.dropWhile p).dropWhile p = l.dropWhile p := by
  induction l with
  | nil => rfl
  | cons c rest ih =>
    by_cases h : p c = true
    · simp [List.dropWhile_cons, h, ih]
    · simp [List.dropWhile_cons, h]

theorem jsTrim_dropWhile (t : List Nat) :
    jsTrim (t.dropWhile isSpaceCh) = jsTrim t := by
  unfold jsTrim
  rw [dropWhile_idem]

/-! ## Lemmas about `parseModelOutput`'s scanners -/

theorem scanLabel_of_match (c : Nat) (rest l : List Nat)
    (h : matchLabelAt (c :: rest) = some l) : scanLabel (c :: rest) = some l := by
  simp [scanLabel, h]

theorem scanRewrite_of_match (c : Nat) (rest t : List Nat)
    (h : matchRewriteAt (c :: rest) = some t) : scanRewrite (c :: rest) = some t := by
  simp [scanRewrite, h]

theorem matchRewriteAt_none_of (u t : List Nat) (hlen : 8 ≤ u.length)
    (hne : ¬ jsToLower (u.take 8) = jsToLower (str "Rewrite:")) :
    matchRewriteAt (u ++ t) = none := by
  unfold matchRewriteAt
  have e8 : (str "Rewrite:").length = 8 := rfl
  rw [matchCIlit_append _ _ _ (by omega), e8, if_neg hne]

theorem scanRewrite_through (u w : List Nat)
    (h : ∀ v ∈ u.tails, v ≠ [] → matchRewriteAt (v ++ w) = none) :
    scanRewrite (u ++ w) = scanRewrite w := by
  induction u with
  | nil => rfl
  | cons c rest ih =>
    have h0 : matchRewriteAt ((c :: rest) ++ w) = none :=
      h _ ((List.mem_tails _ _).mpr (List.suffix_refl _)) (by simp)
    show scanRewrite ((c :: rest) ++ w) = scanRewrite w
    rw [List.cons_append]
    simp only [scanRewrite]
    rw [show c :: (rest ++ w) = (c :: rest) ++ w from rfl, h0]
    exact ih fun v hv hne =>
      h v ((List.mem_tails _ _).mpr
        (((List.mem_tails _ _).mp hv).trans (List.suffix_cons c rest))) hne

theorem matchRewriteAt_none_mid (v R t : List Nat) (hlen : 8 ≤ (v ++ R).length)
    (hne : ¬ jsToLower ((v ++ R).take 8) = jsToLower (str "Rewrite:")) :
    matchRewriteAt (v ++ (R ++ t)) = none := by
  rw [← List.append_assoc]
  exact matchRewriteAt_none_of _ _ hlen hne

/-- Model of `Rewrite:` match at the format's second line. -/
theorem matchRewriteAt_line (t : List Nat) :
    matchRewriteAt (str "Rewrite: " ++ t) = some (jsTrim (t.dropWhile isSpaceCh)) := by
  unfold matchRewriteAt
  rw [matchCIlit_append _ _ _ (by decide), if_pos (by decide)]
  rfl

theorem scanRewrite_line (t : List Nat) :
    scanRewrite (str "Rewrite: " ++ t) = some (jsTrim t) := by
  have h := matchRewriteAt_line t
  rw [jsTrim_dropWhile] at h
  exact scanRewrite_of_match 82 _ _ h

theorem matchLabelAt_green (t : List Nat) :
    matchLabelAt (str "Label: green\nRewrite: " ++ t) = some (str "green") := by
  unfold matchLabelAt
  rw [matchCIlit_append _ _ _ (by decide), if_pos (by decide)]
  dsimp only
  rw [show (List.drop (str "Label:").length (str "Label: green\nRewrite: ") ++ t).dropWhile
        isSpaceCh = str "green\nRewrite: " ++ t from rfl,
    sliceCIAt_zero_append (str "green") (str "green\nRewrite: ") t (by decide)]
  rfl

theorem matchLabelAt_yellow (t : List Nat) :
    matchLabelAt (str "Label: yellow\nRewrite: " ++ t) = some (str "yellow") := by
  unfold matchLabelAt
  rw [matchCIlit_append _ _ _ (by decide), if_pos (by decide)]
  dsimp only
  rw [show (List.drop (str "Label:").length (str "Label: yellow\nRewrite: ") ++ t).dropWhile
        isSpaceCh = str "yellow\nRewrite: " ++ t from rfl,
    sliceCIAt_zero_append (str "green") (str "yellow\nRewrite: ") t (by decide),
    sliceCIAt_zero_append (str "yellow") (str "yellow\nRewrite: ") t (by decide)]
  rfl

theorem matchLabelAt_red (t : List Nat) :
    matchLabelAt (str "Label: red\nRewrite: " ++ t) = some (str "red") := by
  unfold matchLabelAt
  rw [matchCIlit_append _ _ _ (by decide), if_pos (by decide)]
  dsimp only
  rw [show (List.drop (str "Label:").length (str "Label: red\nRewrite: ") ++ t).dropWhile
        isSpaceCh = str "red\nRewrite: " ++ t from rfl,
    sliceCIAt_zero_append (str "green") (str "red\nRewrite: ") t (by decide),
    sliceCIAt_zero_append (str "yellow") (str "red\nRewrite: ") t (by decide),
    sliceCIAt_zero_append (str "red") (str "red\nRewrite: ") t (by decide)]
  rfl

/-- C9, as stated, fails: `"Rewrite: hello"` deviates from the exact
two-line format yet parses with a non-null rewrite. -/
theorem parseModelOutput_deviation_cx :
    ¬ exactTwoLine (str "Rewrite: hello") ∧
    parseModelOutput (str "Rewrite: hello") = ⟨str "unknown", some (str "hello")⟩ := by
  constructor
  · rintro ⟨l, hl, t, ht⟩
    have h1 : (str "Rewrite: hello").headD 0 = 82 := rfl
    rw [ht] at h1
    have h2 : (str "Label: " ++ l ++ [10] ++ str "Rewrite: " ++ t).headD 0 = 76 := rfl
    exact absurd (h2.symm.trans h1) (by decide)
  · decide

/-- C9 amended, positive half: every string in the exact two-line format
parses to the lower-case label and the trimmed rewrite text. -/
theorem parseModelOutput_exact_format (l : List Nat) (hl : l ∈ labelWords) (t : List Nat) :
    parseModelOutput (str "Label: " ++ l ++ [10] ++ str "Rewrite: " ++ t) =
      ⟨l, some (jsTrim t)⟩ := by
  fin_cases hl
  · show parseModelOutput (str "Label: green\nRewrite: " ++ t) = ⟨str "green", some (jsTrim t)⟩
    unfold parseModelOutput
    have hlab : scanLabel (str "Label: green\nRewrite: " ++ t) = some (str "green") :=
      scanLabel_of_match 76 _ _ (matchLabelAt_green t)
    rw [hlab,
      show str "Label: green\nRewrite: " ++ t
        = str "Label: green\n" ++ (str "Rewrite: " ++ t) from rfl,
      scanRewrite_through _ _ ?_, scanRewrite_line]
    · rfl
    · intro v hv hne
      fin_cases hv <;>
        first
        | exact absurd rfl hne
        | exact matchRewriteAt_none_mid _ _ _ (by decide) (by decide)
  · show parseModelOutput (str "Label: yellow\nRewrite: " ++ t) = ⟨str "yellow", some (jsTrim t)⟩
    unfold parseModelOutput
    have hlab : scanLabel (str "Label: yellow\nRewrite: " ++ t) = some (str "yellow") :=
      scanLabel_of_match 76 _ _ (matchLabelAt_yellow t)
    rw [hlab,
      show str "Label: yellow\nRewrite: " ++ t
        = str "Label: yellow\n" ++ (str "Rewrite: " ++ t) from rfl,
      scanRewrite_through _ _ ?_, scanRewrite_line]
    · rfl
    · intro v hv hne
      fin_cases hv <;>
        first
        | exact absurd rfl hne
        | exact matchRewriteAt_none_mid _ _ _ (by decide) (by decide)
  · show parseModelOutput (str "Label: red\nRewrite: " ++ t) = ⟨str "red", some (jsTrim t)⟩
    unfold parseModelOutput
    have hlab : scanLabel (str "Label: red\nRewrite: " ++ t) = some (str "red") :=
      scanLabel_of_match 76 _ _ (matchLabelAt_red t)
    rw [hlab,
      show str "Label: red\nRewrite: " ++ t
        = str "Label: red\n" ++ (str "Rewrite: " ++ t) from rfl,
      scanRewrite_through _ _ ?_, scanRewrite_line]
    · rfl
    · intro v hv hne
      fin_cases hv <;>
        first
        | exact absurd rfl hne
        | exact matchRewriteAt_none_mid _ _ _ (by decide) (by decide)

theorem collectF_cyclicArr (key : List Nat) :
    ∀ f st stack, collectF cyclicArrHeap f st ((HVal.vref 0, key) :: stack) = none := by
  intro f
  induction f with
  | zero => intro st stack; rfl
  | succ f ih => intro st stack; exact ih st stack

/-- C7: the `Array.isArray` branch of `collect` recurses without consulting
the visited set, so a self-referential array never finishes (no fuel
suffices), while a self-referential plain object is caught by the visited
set and the traversal returns its URL set. -/
theorem extractImageUrls_cyclicArray_diverges :
    (∀ fuel, extractImageUrls cyclicArrHeap (HVal.vref 0) fuel = none) ∧
    extractImageUrls cyclicObjHeap (HVal.vref 0) 6 = some [str "https://x.io/a.png"] := by
  constructor
  · intro fuel
    unfold extractImageUrls
    rw [collectF_cyclicArr [] fuel ([], []) []]
    rfl
  · decide

/-! ## C4: `verbNearNoun` characterisation -/

theorem mem_matchIdx (toks : List (List Nat)) (set : List (List Nat)) (i : Nat) :
    (i ∈ (((List.range toks.length).map fun k => (k, toks.getD k [])).filter
        (fun p => fuzzyMatchAny p.2 set 1)).map Prod.fst) ↔
      (i < toks.length ∧ fuzzyMatchAny (toks.getD i []) set 1 = true) := by
  simp only [List.mem_map, List.mem_filter, List.mem_range]
  constructor
  · rintro ⟨p, ⟨⟨k, hk, rfl⟩, hf⟩, rfl⟩
    exact ⟨hk, hf⟩
  · rintro ⟨hi, hf⟩
    exact ⟨(i, toks.getD i []), ⟨⟨i, hi, rfl⟩, hf⟩, rfl⟩

/-- C4: `verbNearNoun(text, verbs, nouns, 6)` is true exactly when some
token fuzzy-matching a verb and some token fuzzy-matching a noun lie at
most 6 token positions apart (tokens = maximal alphanumeric runs). -/
theorem verbNearNoun_iff_pair (text : List Nat) (verbs nouns : List (List Nat)) :
    verbNearNoun text verbs nouns 6 = true ↔
      ∃ i j, i < (tokenize text).length ∧ j < (tokenize text).length ∧
        fuzzyMatchAny ((tokenize text).getD i []) verbs 1 = true ∧
        fuzzyMatchAny ((tokenize text).getD j []) nouns 1 = true ∧
        Nat.dist i j ≤ 6 := by
  unfold verbNearNoun
  simp only [List.any_eq_true, decide_eq_true_eq]
  constructor
  · rintro ⟨iv, hiv, inx, hinx, hd⟩
    rw [mem_matchIdx] at hiv hinx
    exact ⟨iv, inx, hiv.1, hinx.1, hiv.2, hinx.2, hd⟩
  · rintro ⟨i, j, hi, hj, hfi, hfj, hd⟩
    exact ⟨i, (mem_matchIdx _ _ _).mpr ⟨hi, hfi⟩, j, (mem_matchIdx _ _ _).mpr ⟨hj, hfj⟩, hd⟩

/-! ## C5: algebraic properties of `editDistance` -/

/-- C5: `editDistance` is a (non-negative) natural number; it is zero on
equal arguments, symmetric, invariant under changing the case of either
argument, and `editDistance("cat","act") = 1` (adjacent transposition). -/
theorem editDistance_props :
    (∀ a b : List Nat, 0 ≤ editDistance a b) ∧
    (∀ a : List Nat, editDistance a a = 0) ∧
    (∀ a b : List Nat, editDistance a b = editDistance b a) ∧
    (∀ a a' b b' : List Nat, jsToLower a' = jsToLower a → jsToLower b' = jsToLower b →
      editDistance a' b' = editDistance a b) ∧
    editDistance (str "cat") (str "act") = 1 := by
  refine ⟨fun a b => Nat.zero_le _, editDistance_self_eq_zero, editDistance_comm, ?_, by decide⟩
  intro a a' b b' ha hb
  unfold editDistance
  rw [ha, hb]

theorem editDistance_props_witness :
    jsToLower (str "CAT") = jsToLower (str "cat") ∧
    jsToLower (str "Act") = jsToLower (str "act") ∧
    editDistance (str "CAT") (str "Act") = editDistance (str "cat") (str "act") :=
  ⟨by decide, by decide,
    editDistance_props.2.2.2.1 (str "cat") (str "CAT") (str "act") (str "Act")
      (by decide) (by decide)⟩

/-! ## Orchestrator step lemmas -/

theorem levelOf_red (issues : List (List Nat)) (hne : issues ≠ []) :
    levelOf issues true = Level.red := by
  unfold levelOf
  cases issues with
  | nil => exact absurd rfl hne
  | cons c rest => rfl

theorem imageStep_red (scanImages : Bool) (sr : Option (List Finding))
    (issues : List (List Nat)) (level : Level) (hne : issues ≠ [])
    (hlv : level = Level.red) :
    (imageStep scanImages sr issues true level).2.2.1 = Level.red ∧
    (imageStep scanImages sr issues true level).1 ≠ [] ∧
    (imageStep scanImages sr issues true level).2.1 = true := by
  unfold imageStep
  by_cases hs : scanImages = true
  · rw [if_pos hs]
    cases sr with
    | none => exact ⟨hlv, hne, rfl⟩
    | some fs =>
      dsimp only
      by_cases hf : fs.isEmpty = true
      · rw [if_pos hf]; exact ⟨hlv, hne, rfl⟩
      · rw [if_neg hf]
        refine ⟨?_, ?_, rfl⟩
        · apply levelOf_red
          unfold mergeImageIssues
          cases issues with
          | nil => exact absurd rfl hne
          | cons c rest => simp
        · unfold mergeImageIssues
          cases issues with
          | nil => exact absurd rfl hne
          | cons c rest => simp
  · rw [if_neg hs]; exact ⟨hlv, hne, rfl⟩

theorem recheckStep_nofix (env : Env) (platform : List Nat) (fields : Fields)
    (strictMode : Bool) (level : Level) (issues : List (List Nat)) :
    recheckStep env platform fields strictMode [] level issues = (level, issues) := by
  unfold recheckStep
  cases primaryTextField fields <;> rfl

theorem modelStep_no_rb (env : Env) (platform : List Nat) (fields : Fields)
    (strictMode : Bool) (mainField : Option (List Nat)) (level : Level)
    (issues : List (List Nat)) (fixes : List FixItem)
    (h : env.rulebook (jsToLower platform) = none) :
    modelStep env platform fields strictMode mainField level issues fixes =
      (level, issues, fixes, none) := by
  unfold modelStep
  by_cases hl : level = Level.green
  · rw [if_pos hl]
  · rw [if_neg hl, h]

/-! ## C2: missing rulebook -/

/-- C2: with no rulebook for the (lower-cased) platform, `runChecks` does
not throw but returns exactly the single issue
`"No rulebook found for <platform>"`, no fixes, and the high flag; the
orchestrator's final level is red. -/
theorem runChecks_missing_rulebook (env : Env) (platform : List Nat) (fields : Fields)
    (strictMode scanImages : Bool)
    (h : env.rulebook (jsToLower platform) = none) :
    runChecks env platform fields =
      ⟨[str "No rulebook found for " ++ jsToLower platform], [], true⟩ ∧
    (apiCheck env platform fields strictMode scanImages).level = Level.red := by
  have hrc : runChecks env platform fields =
      ⟨[str "No rulebook found for " ++ jsToLower platform], [], true⟩ := by
    unfold runChecks
    dsimp only
    rw [h]
  refine ⟨hrc, ?_⟩
  unfold apiCheck
  rw [hrc]
  dsimp only
  have h1 : levelOf [str "No rulebook found for " ++ jsToLower platform] true = Level.red :=
    levelOf_red _ (by simp)
  rw [h1]
  obtain ⟨e1, e2, e3⟩ := imageStep_red scanImages env.imageScan
    [str "No rulebook found for " ++ jsToLower platform] Level.red (by simp) rfl
  rw [recheckStep_nofix, e1, modelStep_no_rb _ _ _ _ _ _ _ _ h]

theorem runChecks_missing_rulebook_witness :
    (Env.mk (fun _ => none) none none (fun _ => []) none none).rulebook
        (jsToLower (str "Etsy")) = none ∧
    runChecks (Env.mk (fun _ => none) none none (fun _ => []) none none) (str "Etsy") [] =
      ⟨[str "No rulebook found for " ++ jsToLower (str "Etsy")], [], true⟩ ∧
    (apiCheck (Env.mk (fun _ => none) none none (fun _ => []) none none) (str "Etsy") []
        true true).level = Level.red := by
  refine ⟨rfl, ?_, ?_⟩
  · exact (runChecks_missing_rulebook _ (str "Etsy") [] true true rfl).1
  · exact (runChecks_missing_rulebook _ (str "Etsy") [] true true rfl).2

/-! ## C3: the fix re-check step -/

/-- C3: the re-check of the first primary-field fix never increases the
level (strict mode adopts the recomputed level only when same-or-better
under green < yellow < red), and outside strict mode it changes neither the
level nor the issues. -/
theorem recheckStep_never_increases (env : Env) (platform : List Nat) (fields : Fields)
    (strictMode : Bool) (fixes : List FixItem) (level : Level) (issues : List (List Nat)) :
    rank (recheckStep env platform fields strictMode fixes level issues).1 ≤ rank level ∧
    (strictMode = false →
      recheckStep env platform fields strictMode fixes level issues = (level, issues)) := by
  unfold recheckStep
  cases primaryTextField fields with
  | none => exact ⟨le_refl _, fun _ => rfl⟩
  | some mf =>
    dsimp only
    cases fixes.find? fun f => f.field == mf with
    | none => exact ⟨le_refl _, fun _ => rfl⟩
    | some fx =>
      dsimp only
      by_cases he : fx.suggestion = []
      · rw [if_pos he]; exact ⟨le_refl _, fun _ => rfl⟩
      · rw [if_neg he]
        by_cases hs : strictMode = true
        · rw [if_pos hs]
          set second := runChecks env platform
            (setField fields mf (FVal.vstr fx.suggestion)) with hsec
          by_cases hr : rank (levelOf second.issues second.high) ≤ rank level
          · rw [if_pos hr]
            refine ⟨hr, fun hf => ?_⟩
            rw [hf] at hs
            exact absurd hs (by simp)
          · rw [if_neg hr]
            exact ⟨le_refl _, fun _ => rfl⟩
        · rw [if_neg hs]
          exact ⟨le_refl _, fun _ => rfl⟩

theorem recheckStep_never_increases_witness :
    recheckStep (Env.mk (fun _ => none) none none (fun _ => []) none none)
        (str "etsy") [] false [] Level.yellow [str "x"] = (Level.yellow, [str "x"]) :=
  (recheckStep_never_increases (Env.mk (fun _ => none) none none (fun _ => []) none none)
    (str "etsy") [] false [] Level.yellow [str "x"]).2 rfl

/-! ## Level/issue invariants of the orchestrator (for C1) -/

theorem levelOf_green_iff (issues : List (List Nat)) (high : Bool) :
    levelOf issues high = Level.green ↔ issues = [] := by
  unfold levelOf
  cases issues with
  | nil => simp
  | cons c rest =>
    cases high <;> simp

theorem imageStep_green_iff (scanImages : Bool) (sr : Option (List Finding))
    (issues : List (List Nat)) (high : Bool) (level : Level)
    (h : level = Level.green ↔ issues = []) :
    ((imageStep scanImages sr issues high level).2.2.1 = Level.green ↔
      (imageStep scanImages sr issues high level).1 = []) := by
  unfold imageStep
  by_cases hs : scanImages = true
  · rw [if_pos hs]
    cases sr with
    | none => exact h
    | some fs =>
      dsimp only
      by_cases hf : fs.isEmpty = true
      · rw [if_pos hf]; exact h
      · rw [if_neg hf]
        exact levelOf_green_iff _ _
  · rw [if_neg hs]; exact h

theorem recheckStep_green_iff (env : Env) (platform : List Nat) (fields : Fields)
    (strictMode : Bool) (fixes : List FixItem) (level : Level) (issues : List (List Nat))
    (h : level = Level.green ↔ issues = []) :
    ((recheckStep env platform fields strictMode fixes level issues).1 = Level.green ↔
      (recheckStep env platform fields strictMode fixes level issues).2 = []) := by
  unfold recheckStep
  cases primaryTextField fields with
  | none => exact h
  | some mf =>
    dsimp only
    cases fixes.find? fun f => f.field == mf with
    | none => exact h
    | some fx =>
      dsimp only
      by_cases he : fx.suggestion = []
      · rw [if_pos he]; exact h
      · rw [if_neg he]
        by_cases hsm : strictMode = true
        · rw [if_pos hsm]
          set second := runChecks env platform
            (setField fields mf (FVal.vstr fx.suggestion)) with hsec
          by_cases hr : rank (levelOf second.issues second.high) ≤ rank level
          · rw [if_pos hr]; exact levelOf_green_iff _ _
          · rw [if_neg hr]; exact h
        · rw [if_neg hsm]; exact h

theorem modelStep_green_iff (env : Env) (platform : List Nat) (fields : Fields)
    (strictMode : Bool) (mainField : Option (List Nat)) (level : Level)
    (issues : List (List Nat)) (fixes : List FixItem)
    (h : level = Level.green ↔ issues = []) :
    ((modelStep env platform fields strictMode mainField level issues fixes).1 = Level.green ↔
      (modelStep env platform fields strictMode mainField level issues fixes).2.1 = []) := by
  unfold modelStep
  by_cases hg : level = Level.green
  · rw [if_pos hg]; exact h
  · rw [if_neg hg]
    cases env.rulebook (jsToLower platform) with
    | none => exact h
    | some rb =>
      dsimp only
      cases env.modelResponse with
      | none => exact h
      | some output =>
        dsimp only
        cases (parseModelOutput output).rewrite with
        | none => exact h
        | some rw_
        =>
          dsimp only
          by_cases he : rw_ = []
          · rw [if_pos he]; exact h
          · rw [if_neg he]
            set recheck := runChecks env platform (setField fields (mainField.getD (str "description")) (FVal.vstr rw_)) with hrc
            by_cases hsm : strictMode = true
            · rw [if_pos hsm]
              by_cases hr : rank (levelOf recheck.issues recheck.high) < rank level
              · rw [if_pos hr]; exact levelOf_green_iff _ _
              · rw [if_neg hr]; exact h
            · rw [if_neg hsm]
              cases mainField with
              | none => exact h
              | some mf =>
                dsimp only
                by_cases hfr : (if strictMode = true ∧
                      levelOf recheck.issues recheck.high ≠ Level.green then
                    degradeToNeutral rw_ else rw_) ≠ []
                · rw [if_pos hfr]; exact h
                · rw [if_neg hfr]; exact h

theorem recheckStep_nonstrict (env : Env) (platform : List Nat) (fields : Fields)
    (fixes : List FixItem) (level : Level) (issues : List (List Nat)) :
    recheckStep env platform fields false fixes level issues = (level, issues) := by
  unfold recheckStep
  cases primaryTextField fields with
  | none => rfl
  | some mf =>
    dsimp only
    cases fixes.find? fun f => f.field == mf with
    | none => rfl
    | some fx =>
      dsimp only
      by_cases he : fx.suggestion = []
      · rw [if_pos he]
      · rw [if_neg he]
        rfl

theorem modelStep_level_nonstrict (env : Env) (platform : List Nat) (fields : Fields)
    (mainField : Option (List Nat)) (level : Level) (issues : List (List Nat))
    (fixes : List FixItem) :
    (modelStep env platform fields false mainField level issues fixes).1 = level := by
  unfold modelStep
  by_cases hg : level = Level.green
  · rw [if_pos hg]
  · rw [if_neg hg]
    cases env.rulebook (jsToLower platform) with
    | none => rfl
    | some rb =>
      dsimp only
      cases env.modelResponse with
      | none => rfl
      | some output =>
        dsimp only
        cases (parseModelOutput output).rewrite with
        | none => rfl
        | some rw_ =>
          dsimp only
          by_cases he : rw_ = []
          · rw [if_pos he]
          · rw [if_neg he]
            cases mainField with
            | none => rfl
            | some mf =>
              simp only [Bool.false_eq_true, false_and, if_false, ite_false]
              split <;> rfl

theorem imageStep_high_red (scanImages : Bool) (sr : Option (List Finding))
    (issues : List (List Nat)) (high : Bool) (level : Level) (f : Finding)
    (hf : f ∈ (imageStep scanImages sr issues high level).2.2.2)
    (hsev : f.severity = str "high") :
    (imageStep scanImages sr issues high level).2.2.1 = Level.red := by
  unfold imageStep at *
  by_cases hs : scanImages = true
  · rw [if_pos hs] at hf ⊢
    cases sr with
    | none => simp at hf
    | some fs =>
      by_cases he : fs.isEmpty = true
      · rw [List.isEmpty_iff] at he
        subst he
        simp at hf
      · dsimp only at hf ⊢
        rw [if_neg he] at hf ⊢
        have hfs : f ∈ fs := hf
        have hany : anyHigh fs = true := by
          unfold anyHigh
          rw [List.any_eq_true]
          refine ⟨f, hfs, ?_⟩
          rw [hsev]
          exact beq_self_eq_true _
        show levelOf (mergeImageIssues issues fs) (high || anyHigh fs) = Level.red
        rw [hany, Bool.or_true]
        apply levelOf_red
        unfold mergeImageIssues
        intro hcon
        rw [List.append_eq_nil] at hcon
        rw [List.map_eq_nil_iff] at hcon
        rw [hcon.2] at hfs
        simp at hfs
  · rw [if_neg hs] at hf
    simp at hf

/-- C1, as stated, fails: in strict mode the fix re-check runs only the
text engine, so its green result is adopted although a severity-high image
finding is present — the final level is green, not red. -/
theorem apiCheck_high_image_not_red_cx :
    (∃ f ∈ (apiCheck envC1 (str "etsy") fieldsC1 true true).imageFindings,
      f.severity = str "high") ∧
    (apiCheck envC1 (str "etsy") fieldsC1 true true).level = Level.green := by
  constructor
  · decide
  · decide

/-- C1 amended: the level is always one of green/yellow/red; the final
level is green exactly when the final issues list is empty; and outside
strict mode a severity-high image finding still forces a red final level
(in strict mode the fix re-check may adopt a better text-only level, see
the counterexample). -/
theorem apiCheck_level_invariants (env : Env) (platform : List Nat) (fields : Fields)
    (strictMode scanImages : Bool) :
    ((apiCheck env platform fields strictMode scanImages).level = Level.green ∨
     (apiCheck env platform fields strictMode scanImages).level = Level.yellow ∨
     (apiCheck env platform fields strictMode scanImages).level = Level.red) ∧
    ((apiCheck env platform fields strictMode scanImages).level = Level.green ↔
      (apiCheck env platform fields strictMode scanImages).issues = []) ∧
    (strictMode = false →
      (∃ f ∈ (apiCheck env platform fields strictMode scanImages).imageFindings,
        f.severity = str "high") →
      (apiCheck env platform fields strictMode scanImages).level = Level.red) := by
  refine ⟨?_, ?_, ?_⟩
  · cases (apiCheck env platform fields strictMode scanImages).level
    · exact Or.inl rfl
    · exact Or.inr (Or.inl rfl)
    · exact Or.inr (Or.inr rfl)
  · show (modelStep _ _ _ _ _ _ _ _).1 = Level.green ↔ (modelStep _ _ _ _ _ _ _ _).2.1 = []
    apply modelStep_green_iff
    exact recheckStep_green_iff _ _ _ _ _ _ _
      (imageStep_green_iff _ _ _ _ _ (levelOf_green_iff _ _))
  · intro hns ⟨f, hmem, hsev⟩
    subst hns
    show (modelStep _ _ _ _ _ _ _ _).1 = Level.red
    rw [modelStep_level_nonstrict]
    show (recheckStep _ _ _ _ _ _ _).1 = Level.red
    rw [recheckStep_nonstrict]
    exact imageStep_high_red _ _ _ _ _ f hmem hsev

theorem apiCheck_level_invariants_witness :
    ((apiCheck envC1 (str "etsy") fieldsC1 false true).level = Level.green ∨
     (apiCheck envC1 (str "etsy") fieldsC1 false true).level = Level.yellow ∨
     (apiCheck envC1 (str "etsy") fieldsC1 false true).level = Level.red) ∧
    (∃ f ∈ (apiCheck envC1 (str "etsy") fieldsC1 false true).imageFindings,
      f.severity = str "high") ∧
    (apiCheck envC1 (str "etsy") fieldsC1 false true).level = Level.red :=
  ⟨(apiCheck_level_invariants envC1 (str "etsy") fieldsC1 false true).1,
   by decide,
   (apiCheck_level_invariants envC1 (str "etsy") fieldsC1 false true).2.2 rfl (by decide)⟩

theorem parseModelOutput_exact_format_witness :
    (str "green" ∈ labelWords) ∧
    parseModelOutput (str "Label: " ++ str "green" ++ [10] ++ str "Rewrite: " ++ str " hello ") =
      ⟨str "green", some (jsTrim (str " hello "))⟩ :=
  ⟨by decide, parseModelOutput_exact_format (str "green") (by decide) (str " hello ")⟩

/-! ## Character-level lemmas for the style functions -/

theorem lowChar_lowChar (c : Nat) : lowChar (lowChar c) = lowChar c := by
  unfold lowChar
  split_ifs <;> omega

theorem upChar_upChar (c : Nat) : upChar (upChar c) = upChar c := by
  unfold upChar
  split_ifs <;> omega

theorem isWordCh_upChar (c : Nat) : isWordCh (upChar c) = isWordCh c := by
  unfold isWordCh isAlnum upChar
  by_cases h : 97 ≤ c ∧ c ≤ 122
  · rw [if_pos h]
    rw [Bool.eq_iff_iff]
    simp only [Bool.or_eq_true, Bool.and_eq_true, decide_eq_true_eq, beq_iff_eq]
    omega
  · rw [if_neg h]

theorem notSpaceCh_lowChar (c : Nat) : notSpaceCh (lowChar c) = notSpaceCh c := by
  unfold notSpaceCh isSpaceCh lowChar
  by_cases h : 65 ≤ c ∧ c ≤ 90
  · rw [if_pos h]
    rw [Bool.eq_iff_iff]
    simp only [Bool.not_eq_true', Bool.or_eq_false_iff, beq_eq_false_iff_ne, ne_eq]
    omega
  · rw [if_neg h]

theorem lowChar_ne_33 (c : Nat) (h : c ≠ 33) : lowChar c ≠ 33 := by
  unfold lowChar
  split_ifs <;> omega

theorem upChar_ne_33 (c : Nat) (h : c ≠ 33) : upChar c ≠ 33 := by
  unfold upChar
  split_ifs <;> omega

theorem space_not_word (c : Nat) (h : notSpaceCh c = false) : isWordCh c = false := by
  unfold notSpaceCh isSpaceCh at h
  unfold isWordCh isAlnum
  simp only [Bool.not_eq_false', Bool.or_eq_true, beq_iff_eq] at h
  simp only [Bool.or_eq_false_iff, Bool.and_eq_false_iff, decide_eq_false_iff_not, not_le,
    beq_eq_false_iff_ne, ne_eq]
  omega

theorem dropWhile_head_false (p : Nat → Bool) :
    ∀ (l : List Nat) (d : Nat) (r : List Nat), l.dropWhile p = d :: r → p d = false := by
  intro l
  induction l with
  | nil => intro d r h; cases h
  | cons c rest ih =>
    intro d r h
    rw [List.dropWhile_cons] at h
    by_cases hc : p c = true
    · rw [if_pos hc] at h
      exact ih d r h
    · rw [if_neg hc] at h
      cases h
      exact Bool.not_eq_true _ ▸ hc

theorem takeWhile_append_all (p : Nat → Bool) (l₁ l₂ : List Nat)
    (h : ∀ a ∈ l₁, p a = true) :
    (l₁ ++ l₂).takeWhile p = l₁ ++ l₂.takeWhile p := by
  induction l₁ with
  | nil => rfl
  | cons c rest ih =>
    rw [List.cons_append, List.takeWhile_cons, if_pos (h c (List.mem_cons_self _ _)),
      ih fun a ha => h a (List.mem_cons_of_mem _ ha), List.cons_append]

theorem dropWhile_append_all (p : Nat → Bool) (l₁ l₂ : List Nat)
    (h : ∀ a ∈ l₁, p a = true) :
    (l₁ ++ l₂).dropWhile p = l₂.dropWhile p := by
  induction l₁ with
  | nil => rfl
  | cons c rest ih =>
    rw [List.cons_append, List.dropWhile_cons, if_pos (h c (List.mem_cons_self _ _))]
    exact ih fun a ha => h a (List.mem_cons_of_mem _ ha)

theorem titleCase_noBang_aux :
    ∀ (n : Nat) (s : List Nat), s.length = n → 33 ∉ s → 33 ∉ titleCase s := by
  intro n
  induction n using Nat.strong_induction_on with
  | _ n ih =>
    intro s hn hs hmem
    cases s with
    | nil => simp [titleCase, titleF] at hmem
    | cons c rest =>
      rw [titleCase_cons] at hmem
      by_cases hw : isWordCh c = true
      · rw [if_pos hw, List.cons_append, List.mem_cons] at hmem
        rcases hmem with h0 | hmem
        · exact upChar_ne_33 c (fun hc => hs (by rw [← hc]; exact List.mem_cons_self _ _))
            h0.symm
        rcases List.mem_append.mp hmem with h1 | h2
        · obtain ⟨d, hd, hlow⟩ := List.mem_map.mp h1
          have hd' : d ∈ rest := (List.takeWhile_sublist _).subset hd
          exact lowChar_ne_33 d
            (fun hc => hs (by rw [← hc]; exact List.mem_cons_of_mem _ hd')) hlow
        · have hlen : (rest.dropWhile notSpaceCh).length < n := by
            subst hn
            exact Nat.lt_succ_of_le (List.dropWhile_sublist _ |>.length_le)
          exact ih _ hlen _ rfl
            (fun hmm => hs (List.mem_cons_of_mem _ ((List.dropWhile_sublist _).subset hmm))) h2
      · rw [if_neg hw, List.mem_cons] at hmem
        rcases hmem with h0 | hmem
        · exact hs (by rw [h0]; exact List.mem_cons_self _ _)
        · have hlen : rest.length < n := by subst hn; simp
          exact ih _ hlen _ rfl (fun hmm => hs (List.mem_cons_of_mem _ hmm)) hmem

theorem titleCase_noBang (s : List Nat) (h : 33 ∉ s) : 33 ∉ titleCase s :=
  titleCase_noBang_aux s.length s rfl h

theorem titleCase_idem_aux :
    ∀ (n : Nat) (s : List Nat), s.length = n → titleCase (titleCase s) = titleCase s := by
  intro n
  induction n using Nat.strong_induction_on with
  | _ n ih =>
    intro s hn
    cases s with
    | nil => rfl
    | cons c rest =>
      rw [titleCase_cons]
      by_cases hw : isWordCh c = true
      · rw [if_pos hw, List.cons_append, titleCase_cons,
          if_pos (by rw [isWordCh_upChar]; exact hw)]
        have hall : ∀ a ∈ (rest.takeWhile notSpaceCh).map lowChar, notSpaceCh a = true := by
          intro a ha
          obtain ⟨d, hd, rfl⟩ := List.mem_map.mp ha
          rw [notSpaceCh_lowChar]
          exact List.mem_takeWhile_imp hd
        have htw : (titleCase (rest.dropWhile notSpaceCh)).takeWhile notSpaceCh = [] ∧
            (titleCase (rest.dropWhile notSpaceCh)).dropWhile notSpaceCh =
              titleCase (rest.dropWhile notSpaceCh) := by
          cases hr : rest.dropWhile notSpaceCh with
          | nil => simp [titleCase, titleF]
          | cons d r =>
            have hd : notSpaceCh d = false := dropWhile_head_false notSpaceCh rest d r hr
            rw [titleCase_cons, if_neg (by simp [space_not_word d hd])]
            constructor
            · rw [List.takeWhile_cons, if_neg (by simp [hd])]
            · rw [List.dropWhile_cons, if_neg (by simp [hd])]
        rw [takeWhile_append_all _ _ _ hall, htw.1, List.append_nil,
          dropWhile_append_all _ _ _ hall, htw.2, upChar_upChar, List.map_map,
          show lowChar ∘ lowChar = lowChar from funext lowChar_lowChar]
        have hlen : (rest.dropWhile notSpaceCh).length < n := by
          subst hn
          exact Nat.lt_succ_of_le (List.dropWhile_sublist _ |>.length_le)
        rw [ih _ hlen _ rfl, List.cons_append]
      · rw [if_neg hw, titleCase_cons, if_neg hw]
        have hlen : rest.length < n := by subst hn; simp
        rw [ih _ hlen rest rfl]

theorem titleCase_idem (s : List Nat) : titleCase (titleCase s) = titleCase s :=
  titleCase_idem_aux s.length s rfl

theorem applyCasing_idem (cs : Casing) (s : List Nat) :
    applyCasing cs (applyCasing cs s) = applyCasing cs s := by
  cases cs with
  | lower =>
    show jsToLower (jsToLower s) = jsToLower s
    unfold jsToLower
    rw [List.map_map, show lowChar ∘ lowChar = lowChar from funext lowChar_lowChar]
  | title => exact titleCase_idem s
  | sentence =>
    cases s with
    | nil => rfl
    | cons c rest =>
      show upChar (upChar c) :: rest = upChar c :: rest
      rw [upChar_upChar]

theorem applyCasing_noBang (cs : Casing) (s : List Nat) (h : 33 ∉ s) :
    33 ∉ applyCasing cs s := by
  cases cs with
  | lower =>
    intro hmem
    obtain ⟨d, hd, hlow⟩ := List.mem_map.mp hmem
    exact lowChar_ne_33 d (fun hc => h (hc ▸ hd)) hlow
  | title => exact titleCase_noBang s h
  | sentence =>
    cases s with
    | nil => simp [applyCasing]
    | cons c rest =>
      intro hmem
      rcases List.mem_cons.mp hmem with h0 | h1
      · exact upChar_ne_33 c (fun hc => h (by rw [← hc]; exact List.mem_cons_self _ _)) h0.symm
      · exact h (List.mem_cons_of_mem _ h1)

theorem dropTrailing_noBang (s : List Nat) (h : 33 ∉ s) :
    dropTrailing (· == 33) s = s := by
  unfold dropTrailing
  have hd : s.reverse.dropWhile (· == 33) = s.reverse := by
    cases hr : s.reverse with
    | nil => rfl
    | cons c rest =>
      have hc : c ∈ s := List.mem_reverse.mp (hr ▸ List.mem_cons_self _ _)
      rw [List.dropWhile_cons, if_neg (by simp; intro he; exact h (he ▸ hc))]
  rw [hd, List.reverse_reverse]

theorem detectStyle_exclam_zero (x : List Nat) (h : 33 ∉ x) :
    (detectStyle x).exclam = 0 := by
  show min (x.count 33) 2 = 0
  rw [List.count_eq_zero.mpr h]
  simp

/-! ## C8: idempotence of style reapplication -/

/-- C8, as stated, fails: `applyStyle` strips trailing dots (not trailing
exclamation marks) before appending `'!'.repeat(exclam)`, so a string that
already ends in `!` gains one more on every application. -/
theorem applyStyle_repeat_grows_cx :
    applyStyle (applyStyle (str "hi!") (detectStyle (str "hi!"))) (detectStyle (str "hi!"))
      ≠ applyStyle (str "hi!") (detectStyle (str "hi!")) := by decide

/-- C8 amended: style reapplication is idempotent for every input without
`'!'` (then the detected exclamation count is 0); with a positive detected
count each application appends that many `'!'` again. -/
theorem applyStyle_idem_of_no_exclam (x : List Nat) (h : 33 ∉ x) :
    applyStyle (applyStyle x (detectStyle x)) (detectStyle x) =
      applyStyle x (detectStyle x) := by
  have hz : (detectStyle x).exclam = 0 := detectStyle_exclam_zero x h
  unfold applyStyle
  rw [hz]
  simp only [lt_self_iff_false, if_false]
  have hA : 33 ∉ applyCasing (detectStyle x).casing x := applyCasing_noBang _ _ h
  rw [dropTrailing_noBang _ hA, applyCasing_idem, dropTrailing_noBang _ hA]

theorem applyStyle_idem_of_no_exclam_witness :
    (33 ∉ str "Big Red Dog") ∧
    applyStyle (applyStyle (str "Big Red Dog") (detectStyle (str "Big Red Dog")))
        (detectStyle (str "Big Red Dog")) =
      applyStyle (str "Big Red Dog") (detectStyle (str "Big Red Dog")) :=
  ⟨by decide, applyStyle_idem_of_no_exclam (str "Big Red Dog") (by decide)⟩

/-! ## `rewriteMedical` never yields the empty string (C6) -/

theorem collWSF_mem : ∀ (f : Nat) (s : List Nat) (c : Nat),
    c ∈ collWSF f s → c = 32 ∨ c ∈ s := by
  intro f
  induction f with
  | zero =>
    intro s c hc
    cases s <;> simp [collWSF] at hc
  | succ f ih =>
    intro s c hc
    match s with
    | [] => simp [collWSF] at hc
    | d :: rest =>
      simp only [collWSF] at hc
      by_cases hd : isSpaceCh d = true
      · rw [if_pos hd] at hc
        rcases List.mem_cons.mp hc with h0 | h1
        · exact Or.inl h0
        · rcases ih _ _ h1 with h2 | h2
          · exact Or.inl h2
          · exact Or.inr (List.mem_cons_of_mem _ ((List.dropWhile_sublist _).subset h2))
      · rw [if_neg hd] at hc
        rcases List.mem_cons.mp hc with h0 | h1
        · exact Or.inr (h0 ▸ List.mem_cons_self _ _)
        · rcases ih _ _ h1 with h2 | h2
          · exact Or.inl h2
          · exact Or.inr (List.mem_cons_of_mem _ h2)

theorem jsTrim_subset (s : List Nat) (c : Nat) (hc : c ∈ jsTrim s) : c ∈ s := by
  unfold jsTrim dropTrailing at hc
  have h0 := List.mem_reverse.mp hc
  have h1 := (List.dropWhile_sublist _).subset h0
  exact (List.dropWhile_sublist _).subset (List.mem_reverse.mp h1)

theorem normWS_noBang (x : List Nat) (h : 33 ∉ x) : 33 ∉ normWS x := by
  intro hm
  have h1 := jsTrim_subset _ _ hm
  rcases collWSF_mem _ _ _ h1 with h2 | h2
  · omega
  · exact h h2

theorem verbPass_noBang (verbs : List (List Nat)) (s : List Nat) (h : 33 ∉ s) :
    33 ∉ verbPass verbs s := by
  intro hm
  unfold verbPass at hm
  obtain ⟨l, hl, hcl⟩ := List.mem_flatten.mp hm
  obtain ⟨w, hw, rfl⟩ := List.mem_map.mp hl
  by_cases hc : (isPlainTok w && fuzzyMatchAny w verbs 1) = true
  · rw [if_pos hc] at hcl
    split at hcl <;> revert hcl <;> decide
  · rw [if_neg hc] at hcl
    exact h (chunkSplit_subset s w hw 33 hcl)

theorem nounPass_noBang (diseases : List (List Nat)) (noun s : List Nat)
    (hn : 33 ∉ noun) (h : 33 ∉ s) : 33 ∉ nounPass diseases noun s := by
  intro hm
  unfold nounPass at hm
  obtain ⟨l, hl, hcl⟩ := List.mem_flatten.mp hm
  obtain ⟨w, hw, rfl⟩ := List.mem_map.mp hl
  by_cases hc : (isPlainTok w && fuzzyMatchAny w diseases 1) = true
  · rw [if_pos hc] at hcl
    exact hn hcl
  · rw [if_neg hc] at hcl
    exact h (chunkSplit_subset s w hw 33 hcl)

theorem tidy_noBang (s : List Nat) (h : 33 ∉ s) : 33 ∉ tidy s := by
  unfold tidy
  intro hm
  rcases replaceBound_mem _ _ _ _ hm with h1 | h1
  swap
  · revert h1; decide
  rcases replaceBound_mem _ _ _ _ h1 with h2 | h2
  swap
  · revert h2; decide
  rcases replaceBound_mem _ _ _ _ h2 with h3 | h3
  swap
  · revert h3; decide
  rcases replaceBound_mem _ _ _ _ h3 with h4 | h4
  swap
  · revert h4; decide
  exact h h4

theorem rmPre_noBang (text : List Nat) (shared : Option SharedMed) (rb : Option Rulebook)
    (htext : 33 ∉ text) (hnn : 33 ∉ neutralNounOf rb) : 33 ∉ rmPre text shared rb := by
  unfold rmPre
  have h3 : 33 ∉ tidy (nounPass ((shared.map SharedMed.diseases).getD [])
      (neutralNounOf rb) (verbPass ((shared.map SharedMed.claim_verbs).getD [])
        (normWS text))) :=
    tidy_noBang _ (nounPass_noBang _ _ _ hnn
      (verbPass_noBang _ _ (normWS_noBang _ htext)))
  by_cases hmod : (detectStyle text).usedModal = true
  · rw [if_pos hmod]
    exact h3
  · rw [if_neg hmod]
    intro hm
    rcases replaceBound_mem _ _ _ _ hm with h4 | h4
    · exact h3 h4
    · revert h4; decide

theorem titleCase_length_aux :
    ∀ (n : Nat) (s : List Nat), s.length = n → (titleCase s).length = s.length := by
  intro n
  induction n using Nat.strong_induction_on with
  | _ n ih =>
    intro s hn
    cases s with
    | nil => rfl
    | cons c rest =>
      rw [titleCase_cons]
      by_cases hw : isWordCh c = true
      · rw [if_pos hw]
        have hlen : (rest.dropWhile notSpaceCh).length < n := by
          subst hn
          exact Nat.lt_succ_of_le (List.dropWhile_sublist _ |>.length_le)
        have hsum : (rest.takeWhile notSpaceCh).length +
            (rest.dropWhile notSpaceCh).length = rest.length := by
          rw [← List.length_append, List.takeWhile_append_dropWhile]
        simp only [List.length_append, List.length_cons, List.length_map]
        rw [ih _ hlen _ rfl]
        omega
      · rw [if_neg hw]
        have hlen : rest.length < n := by subst hn; simp
        simp only [List.length_cons]
        rw [ih _ hlen rest rfl]

theorem applyCasing_length (cs : Casing) (s : List Nat) :
    (applyCasing cs s).length = s.length := by
  cases cs with
  | lower => exact List.length_map _ _
  | title => exact titleCase_length_aux s.length s rfl
  | sentence => cases s <;> rfl

theorem noBang_of_exclam_zero (x : List Nat) (hz : (detectStyle x).exclam = 0) :
    33 ∉ x := by
  intro hm
  have hc : x.count 33 ≠ 0 := fun h0 => (List.count_eq_zero.mp h0) hm
  have he : (detectStyle x).exclam = min (x.count 33) 2 := rfl
  omega

theorem rewriteMedical_ne_nil (text : List Nat) (shared : Option SharedMed)
    (rb : Option Rulebook) (hnn : 33 ∉ neutralNounOf rb) :
    rewriteMedical text shared rb ≠ [] := by
  unfold rewriteMedical applyStyle
  by_cases hex : 0 < (detectStyle text).exclam
  · rw [if_pos hex]
    intro hcon
    rw [List.append_eq_nil] at hcon
    have h2 := congrArg List.length hcon.2
    simp only [List.length_replicate, List.length_nil] at h2
    omega
  · have hz : (detectStyle text).exclam = 0 := by omega
    have htext : 33 ∉ text := noBang_of_exclam_zero text hz
    rw [if_neg hex]
    have hs' : 33 ∉ (if (rmPre text shared rb).length < 15 then safeSentence
        else rmPre text shared rb) := by
      by_cases hlen : (rmPre text shared rb).length < 15
      · rw [if_pos hlen]; decide
      · rw [if_neg hlen]; exact rmPre_noBang text shared rb htext hnn
    have hlen' : (if (rmPre text shared rb).length < 15 then safeSentence
        else rmPre text shared rb).length ≠ 0 := by
      by_cases hlen : (rmPre text shared rb).length < 15
      · rw [if_pos hlen]; decide
      · rw [if_neg hlen]; omega
    rw [dropTrailing_noBang _ (applyCasing_noBang _ _ hs')]
    intro hcon
    have := applyCasing_length (detectStyle text).casing
      (if (rmPre text shared rb).length < 15 then safeSentence else rmPre text shared rb)
    rw [hcon] at this
    exact hlen' this.symm

/-! ## C6: output shape of `rewriteMedical` -/

/-- C6, as stated, fails: a rulebook whose `rewrite.neutral_noun` is a
string of 15 `'!'` makes `rewriteMedical` return the empty string (the
noun replaces the disease, the detected style has no exclamation marks,
and `applyStyle` strips the trailing `'!'` run). -/
theorem rewriteMedical_empty_cx :
    rewriteMedical (str "cancer") (some ⟨[], [str "cancer"]⟩)
      (some { limits := none, categories := [],
              rewrite := some ⟨some (str "!!!!!!!!!!!!!!!")⟩ }) = [] := by decide

/-- C6 amended: `rewriteMedical` returns a non-empty string whenever the
effective neutral noun contains no `'!'` (in particular for the default
`"overall wellness"`); and whenever the text reaching the length check is
shorter than 15 characters the result is exactly the fixed safe sentence
with the detected style reapplied. -/
theorem rewriteMedical_shape (text : List Nat) (shared : Option SharedMed)
    (rb : Option Rulebook) :
    (33 ∉ neutralNounOf rb → rewriteMedical text shared rb ≠ []) ∧
    ((rmPre text shared rb).length < 15 →
      rewriteMedical text shared rb = applyStyle safeSentence (detectStyle text)) := by
  constructor
  · exact fun hnn => rewriteMedical_ne_nil text shared rb hnn
  · intro hlen
    unfold rewriteMedical
    dsimp only
    rw [if_pos hlen]

theorem rewriteMedical_shape_witness :
    (33 ∉ neutralNounOf none) ∧
    rewriteMedical (str "this cures cancer") (some ⟨[str "cures"], [str "cancer"]⟩)
      none ≠ [] ∧
    ((rmPre [] none none).length < 15 ∧
      rewriteMedical [] none none = applyStyle safeSentence (detectStyle [])) :=
  ⟨by decide,
   (rewriteMedical_shape (str "this cures cancer")
     (some ⟨[str "cures"], [str "cancer"]⟩) none).1 (by decide),
   by decide,
   (rewriteMedical_shape [] none none).2 (by decide)⟩

/-! ## Monotonicity of the URL-token heuristics under path extension (C10) -/

theorem getD_mem_of_lt (l : List Nat) (i d : Nat) (h : i < l.length) : l.getD i d ∈ l := by
  rw [List.getD_eq_getElem l d h]
  exact List.getElem_mem h

theorem sliceAt_append (pat s ext : List Nat) (i : Nat) (h : sliceAt pat s i = true) :
    sliceAt pat (s ++ ext) i = true := by
  unfold sliceAt at *
  simp only [Bool.and_eq_true, decide_eq_true_eq, List.all_eq_true, List.mem_range] at *
  obtain ⟨hlen, hall⟩ := h
  refine ⟨by simp only [List.length_append]; omega, ?_⟩
  intro k hk
  have hx := hall k hk
  rwa [List.getD_append _ _ _ _ (by omega)]

theorem sliceCIAt_append (pat s ext : List Nat) (i : Nat) (h : sliceCIAt pat s i = true) :
    sliceCIAt pat (s ++ ext) i = true := by
  unfold sliceCIAt at *
  simp only [Bool.and_eq_true, decide_eq_true_eq, List.all_eq_true, List.mem_range] at *
  obtain ⟨hlen, hall⟩ := h
  refine ⟨by simp only [List.length_append]; omega, ?_⟩
  intro k hk
  have hx := hall k hk
  rwa [List.getD_append _ _ _ _ (by omega)]

theorem hasCI_append (pat s ext : List Nat) (h : hasCI pat s = true) :
    hasCI pat (s ++ ext) = true := by
  unfold hasCI at *
  rw [List.any_eq_true] at *
  obtain ⟨i, hi, hs⟩ := h
  refine ⟨i, ?_, sliceCIAt_append _ _ _ _ hs⟩
  simp only [List.mem_range, List.length_append] at hi ⊢
  omega

theorem sliceAt_len (pat s : List Nat) (i : Nat) (h : sliceAt pat s i = true) :
    i + pat.length ≤ s.length := by
  unfold sliceAt at h
  simp only [Bool.and_eq_true, decide_eq_true_eq] at h
  exact h.1

theorem sliceCIAt_len (pat s : List Nat) (i : Nat) (h : sliceCIAt pat s i = true) :
    i + pat.length ≤ s.length := by
  unfold sliceCIAt at h
  simp only [Bool.and_eq_true, decide_eq_true_eq] at h
  exact h.1

theorem hasTokenB_append (tok u ext : List Nat) (hne : tok ≠ []) (hnsp : 32 ∉ tok)
    (h : hasTokenB tok (u ++ [32]) = true) :
    hasTokenB tok ((u ++ [32]) ++ ext) = true := by
  unfold hasTokenB at *
  rw [List.any_eq_true] at *
  obtain ⟨i, hi, hcond⟩ := h
  simp only [Bool.and_eq_true] at hcond
  obtain ⟨⟨hslice, hpre⟩, hpost⟩ := hcond
  have hiLen := sliceAt_len _ _ _ hslice
  have htl : 0 < tok.length := List.length_pos.mpr hne
  have hlt : i + tok.length < (u ++ [32]).length := by
    rcases Nat.lt_or_ge (i + tok.length) ((u ++ [32]).length) with hh | hh
    · exact hh
    · exfalso
      have heq : i + tok.length = (u ++ [32]).length := le_antisymm hiLen hh
      have hk := (by
        unfold sliceAt at hslice
        simp only [Bool.and_eq_true, decide_eq_true_eq, List.all_eq_true,
          List.mem_range] at hslice
        exact hslice.2 (tok.length - 1) (by omega) :
        ((u ++ [32]).getD (i + (tok.length - 1)) 0 == tok.getD (tok.length - 1) 0) = true)
      rw [beq_iff_eq] at hk
      have hu : (u ++ [32]).getD (i + (tok.length - 1)) 0 = 32 := by
        have : i + (tok.length - 1) = u.length := by
          simp only [List.length_append, List.length_cons, List.length_nil] at heq
          omega
        rw [this, List.getD_append_right _ _ _ _ (le_refl _)]
        simp
      rw [hu] at hk
      exact hnsp (hk ▸ getD_mem_of_lt tok (tok.length - 1) 0 (by omega))
  refine ⟨i, ?_, ?_⟩
  · simp only [List.mem_range, List.length_append] at hi ⊢
    omega
  · simp only [Bool.and_eq_true]
    refine ⟨⟨sliceAt_append _ _ _ _ hslice, ?_⟩, ?_⟩
    · rcases Nat.eq_zero_or_pos i with hz | hp
      · subst hz
        simp
      · simp only [Bool.or_eq_true] at hpre ⊢
        rcases hpre with h0 | h1
        · simp only [beq_iff_eq] at h0
          omega
        · right
          rwa [List.getD_append _ _ _ _ (by
            simp only [List.length_append, List.length_cons, List.length_nil] at hiLen ⊢
            omega)]
    · rwa [List.getD_append _ _ _ _ hlt]

theorem hasWordCI_append (tok u ext : List Nat) (hne : tok ≠ []) (hnsp : 32 ∉ tok)
    (h : hasWordCI tok (u ++ [32]) = true) :
    hasWordCI tok ((u ++ [32]) ++ ext) = true := by
  unfold hasWordCI at *
  rw [List.any_eq_true] at *
  obtain ⟨i, hi, hcond⟩ := h
  simp only [Bool.and_eq_true] at hcond
  obtain ⟨hslice, hbnd⟩ := hcond
  unfold wordBoundaryOk at hbnd ⊢
  simp only [Bool.and_eq_true, Bool.or_eq_true] at hbnd
  obtain ⟨hpre, hpost⟩ := hbnd
  have hiLen := sliceCIAt_len _ _ _ hslice
  have htl : 0 < tok.length := List.length_pos.mpr hne
  have hlt : i + tok.length < (u ++ [32]).length := by
    rcases Nat.lt_or_ge (i + tok.length) ((u ++ [32]).length) with hh | hh
    · exact hh
    · exfalso
      have heq : i + tok.length = (u ++ [32]).length := le_antisymm hiLen hh
      have hk := (by
        unfold sliceCIAt at hslice
        simp only [Bool.and_eq_true, decide_eq_true_eq, List.all_eq_true,
          List.mem_range] at hslice
        exact hslice.2 (tok.length - 1) (by omega) :
        (lowChar ((u ++ [32]).getD (i + (tok.length - 1)) 0) ==
          lowChar (tok.getD (tok.length - 1) 0)) = true)
      rw [beq_iff_eq] at hk
      have hu : (u ++ [32]).getD (i + (tok.length - 1)) 0 = 32 := by
        have : i + (tok.length - 1) = u.length := by
          simp only [List.length_append, List.length_cons, List.length_nil] at heq
          omega
        rw [this, List.getD_append_right _ _ _ _ (le_refl _)]
        simp
      rw [hu] at hk
      have h32 : tok.getD (tok.length - 1) 0 = 32 := by
        have hl32 : lowChar 32 = 32 := by decide
        rw [hl32] at hk
        unfold lowChar at hk
        split_ifs at hk <;> omega
      exact hnsp (h32 ▸ getD_mem_of_lt tok (tok.length - 1) 0 (by omega))
  refine ⟨i, ?_, ?_⟩
  · simp only [List.mem_range, List.length_append] at hi ⊢
    omega
  · simp only [Bool.and_eq_true, Bool.or_eq_true]
    refine ⟨sliceCIAt_append _ _ _ _ hslice, ⟨?_, ?_⟩⟩
    · rcases Nat.eq_zero_or_pos i with hz | hp
      · subst hz
        left
        simp
      · rcases hpre with h0 | h1
        · simp only [beq_iff_eq] at h0
          omega
        · right
          rwa [List.getD_append _ _ _ _ (by
            simp only [List.length_append, List.length_cons, List.length_nil] at hiLen ⊢
            omega)]
    · right
      rcases hpost with h0 | h1
      · simp only [beq_iff_eq] at h0
        omega
      · rwa [List.getD_append _ _ _ _ hlt]

theorem pathish_none (url : List Nat) : pathishOf url none = jsToLower url ++ [32] := by
  unfold pathishOf jsToLower
  rw [show ((none : Option FileInfo).map FileInfo.path).getD [] = [] from rfl,
    List.append_nil, List.map_append]
  rfl

theorem pathish_some (url : List Nat) (info : FileInfo) :
    pathishOf url (some info) = pathishOf url none ++ jsToLower info.path := by
  simp only [pathishOf, jsToLower, Option.map_some', Option.map_none',
    Option.getD_some, Option.getD_none, List.append_nil, List.map_append,
    List.append_assoc]

theorem tokMono (tok url : List Nat) (info : FileInfo) (hne : tok ≠ []) (hnsp : 32 ∉ tok)
    (h : hasTokenB tok (pathishOf url none) = true) :
    hasTokenB tok (pathishOf url (some info)) = true := by
  rw [pathish_some, pathish_none] at *
  exact hasTokenB_append tok (jsToLower url) _ hne hnsp h

theorem wordMono (tok url : List Nat) (info : FileInfo) (hne : tok ≠ []) (hnsp : 32 ∉ tok)
    (h : hasWordCI tok (pathishOf url none) = true) :
    hasWordCI tok (pathishOf url (some info)) = true := by
  rw [pathish_some, pathish_none] at *
  exact hasWordCI_append tok (jsToLower url) _ hne hnsp h

theorem ciMono (pat url : List Nat) (info : FileInfo)
    (h : hasCI pat (pathishOf url none) = true) :
    hasCI pat (pathishOf url (some info)) = true := by
  rw [pathish_some] at *
  exact hasCI_append _ _ _ h

theorem nsfwCond_mono (url : List Nat) (info : FileInfo)
    (h : nsfwCond (pathishOf url none) = true) :
    nsfwCond (pathishOf url (some info)) = true := by
  unfold nsfwCond at *
  simp only [Bool.or_eq_true] at h ⊢
  rcases h with ((((h|h)|h)|h)|h)|h <;>
    simp only [tokMono _ _ info (by decide) (by decide) h, true_or, or_true]

theorem violenceCond_mono (url : List Nat) (info : FileInfo)
    (h : violenceCond (pathishOf url none) = true) :
    violenceCond (pathishOf url (some info)) = true := by
  unfold violenceCond at *
  simp only [Bool.or_eq_true] at h ⊢
  rcases h with (((h|h)|h)|h)|h <;>
    simp only [tokMono _ _ info (by decide) (by decide) h, true_or, or_true]

theorem counterfeitCond_mono (url : List Nat) (info : FileInfo)
    (h : counterfeitCond (pathishOf url none) = true) :
    counterfeitCond (pathishOf url (some info)) = true := by
  unfold counterfeitCond at *
  simp only [Bool.or_eq_true] at h ⊢
  rcases h with (((((h|h)|h)|h)|h)|h)|h <;>
    first
    | simp only [tokMono _ _ info (by decide) (by decide) h, true_or, or_true]
    | simp only [ciMono _ _ info h, true_or, or_true]

theorem qrCond_mono (url : List Nat) (info : FileInfo)
    (h : qrCond (pathishOf url none) = true) :
    qrCond (pathishOf url (some info)) = true := by
  unfold qrCond at *
  simp only [Bool.or_eq_true] at h ⊢
  rcases h with (((h|h)|h)|h)|h <;>
    first
    | simp only [tokMono _ _ info (by decide) (by decide) h, true_or, or_true]
    | simp only [wordMono _ _ info (by decide) (by decide) h, true_or, or_true]

theorem mem_cond_singleton (f x : List Nat × List Nat) (c₁ c₂ : Bool)
    (himp : c₁ = true → c₂ = true)
    (hm : f ∈ if c₁ then [x] else []) : f ∈ if c₂ then [x] else [] := by
  by_cases hc : c₁ = true
  · rw [if_pos hc] at hm
    rw [if_pos (himp hc)]
    exact hm
  · rw [if_neg hc] at hm
    simp at hm

theorem detectImageIssues_mono (url : List Nat) (info : FileInfo)
    (f : List Nat × List Nat) (hf : f ∈ detectImageIssues url none) :
    f ∈ detectImageIssues url (some info) := by
  unfold detectImageIssues at *
  dsimp only at hf ⊢
  rcases List.mem_append.mp hf with h4 | h5
  swap
  · rw [show ctCond url none = false from rfl] at h5
    simp at h5
  rcases List.mem_append.mp h4 with h3 | hq
  swap
  · exact List.mem_append_left _ (List.mem_append_right _
      (mem_cond_singleton _ _ _ _ (qrCond_mono url info) hq))
  rcases List.mem_append.mp h3 with h2 | hc
  swap
  · exact List.mem_append_left _ (List.mem_append_left _ (List.mem_append_right _
      (mem_cond_singleton _ _ _ _ (counterfeitCond_mono url info) hc)))
  rcases List.mem_append.mp h2 with h1 | hv
  swap
  · exact List.mem_append_left _ (List.mem_append_left _ (List.mem_append_left _
      (List.mem_append_right _ (mem_cond_singleton _ _ _ _ (violenceCond_mono url info) hv))))
  · exact List.mem_append_left _ (List.mem_append_left _ (List.mem_append_left _
      (List.mem_append_left _ (mem_cond_singleton _ _ _ _ (nsfwCond_mono url info) h1))))

theorem count_map_ge (g : Finding → List Nat) (l : List Finding) (x : Finding) :
    l.count x ≤ (l.map g).count (g x) := by
  induction l with
  | nil => simp
  | cons y l ih =>
    simp only [List.map_cons, List.count_cons]
    by_cases h : y = x
    · subst h
      simp only [beq_self_eq_true, if_true]
      omega
    · have hyx : (y == x) = false := by
        rw [beq_eq_false_iff_ne]
        exact h
      rw [hyx]
      simp only [Bool.false_eq_true, if_false]
      split <;> omega

/-! ## C10: duplicate emission of URL-token findings -/

/-- C10: for a URL whose token heuristics fire and whose download succeeds,
each token-based finding is pushed once by the URL-only pass and once again
after the download, so the identical `{url, severity, label}` entry occurs
at least twice in the scan result, and the orchestrator's merge appends the
corresponding issue string at least twice as well. -/
theorem scanLoop_reports_twice (urls : List (List Nat))
    (download : List Nat → Option FileInfo) (url : List Nat) (info : FileInfo)
    (f : List Nat × List Nat) (issues : List (List Nat))
    (hurl : url ∈ urls) (hdl : download url = some info)
    (hf : f ∈ detectImageIssues url none) :
    2 ≤ (scanLoop download urls).count ⟨url, f.1, f.2⟩ ∧
    2 ≤ (mergeImageIssues issues (scanLoop download urls)).count
          (mergeLabel ⟨url, f.1, f.2⟩) := by
  have main : 2 ≤ (scanLoop download urls).count ⟨url, f.1, f.2⟩ := by
    induction urls with
    | nil => cases hurl
    | cons u rest ih =>
      show 2 ≤ (((detectImageIssues u none).map fun h => Finding.mk u h.1 h.2) ++
        (match download u with
         | some info => (detectImageIssues u (some info)).map fun h => Finding.mk u h.1 h.2
         | none =>
           if imgExtTest u then
             [Finding.mk u (str "medium") (str "Image fetch failed (non-blocking)")]
           else []) ++ scanLoop download rest).count ⟨url, f.1, f.2⟩
      rcases List.mem_cons.mp hurl with rfl | hmem
      · rw [hdl]
        simp only [List.count_append]
        have h1 : 1 ≤ ((detectImageIssues url none).map fun h =>
            Finding.mk url h.1 h.2).count ⟨url, f.1, f.2⟩ := by
          apply List.one_le_count_iff.mpr
          exact List.mem_map.mpr ⟨f, hf, rfl⟩
        have h2 : 1 ≤ ((detectImageIssues url (some info)).map fun h =>
            Finding.mk url h.1 h.2).count ⟨url, f.1, f.2⟩ := by
          apply List.one_le_count_iff.mpr
          exact List.mem_map.mpr ⟨f, detectImageIssues_mono url info f hf, rfl⟩
        omega
      · have := ih hmem
        simp only [List.count_append]
        omega
  refine ⟨main, ?_⟩
  unfold mergeImageIssues
  rw [List.count_append]
  have := count_map_ge mergeLabel (scanLoop download urls) ⟨url, f.1, f.2⟩
  omega

theorem scanLoop_reports_twice_witness :
    ((str "https://x.io/nsfw_a.png") ∈ [str "https://x.io/nsfw_a.png"]) ∧
    ((fun _ => some (FileInfo.mk (str "tmp_1_https_x_io_nsfw_a_png") 10 (str "image/png")) :
        List Nat → Option FileInfo) (str "https://x.io/nsfw_a.png") =
      some (FileInfo.mk (str "tmp_1_https_x_io_nsfw_a_png") 10 (str "image/png"))) ∧
    ((str "high", str "NSFW / Adult content (image hint)") ∈
      detectImageIssues (str "https://x.io/nsfw_a.png") none) ∧
    2 ≤ (scanLoop
          (fun _ => some (FileInfo.mk (str "tmp_1_https_x_io_nsfw_a_png") 10 (str "image/png")))
          [str "https://x.io/nsfw_a.png"]).count
        ⟨str "https://x.io/nsfw_a.png", str "high", str "NSFW / Adult content (image hint)"⟩ :=
  ⟨by decide, rfl, by decide,
   (scanLoop_reports_twice [str "https://x.io/nsfw_a.png"]
     (fun _ => some (FileInfo.mk (str "tmp_1_https_x_io_nsfw_a_png") 10 (str "image/png")))
     (str "https://x.io/nsfw_a.png")
     (FileInfo.mk (str "tmp_1_https_x_io_nsfw_a_png") 10 (str "image/png"))
     (str "high", str "NSFW / Adult content (image hint)") []
     (by decide) rfl (by decide)).1⟩
